import Mathlib

/-!
Shallow embedding of the map-coloring CSP solver (csp.py and coloring_map.py).

Python strings are modelled as lists of characters (`Str`), Python dicts used
as assignments are modelled as association lists with unique keys, and the
mutable per-solve state of the `CSP` object (`curr_domains`, `nassigns`) plus
the closure state of `backtracking_search` (`step`, `trace`) is threaded
explicitly through a `BT` record.  Exceptions (`RuntimeError` on trace
overflow, the top-level `AssertionError`, `StopIteration` from `first`) are
modelled with `Except Err`.  The unbounded Python recursion of `backtrack` is
modelled with an explicit fuel parameter; exhausting the fuel yields the
distinguished outcome `Err.outOfFuel`, which never occurs for adequate fuel.
-/

namespace MapCSP

set_option linter.unusedSectionVars false

/-- Python strings modelled as lists of characters. -/
abbrev Str := List Char

variable {V A : Type} [DecidableEq V] [DecidableEq A]

/-- From csp.py: `first(seq)` returns `next(iter(seq))`; it raises
`StopIteration` on an empty sequence, modelled by `none`. -/
def first (seq : List V) : Option V :=
  seq.head?

/-- From csp.py: `count_true(items)` counts the true elements. -/
def count_true (items : List Bool) : Nat :=
  items.countP id

/-- The list `best` built by the loop of `argmin_random_tie`: all elements of
`seq` attaining the minimal key, in order of appearance. -/
def argminList (seq : List V) (key : V → Nat) : List V :=
  seq.foldl (fun best x =>
    match best with
    | [] => [x]
    | b :: _ =>
      if key x < key b then [x]
      else if key x = key b then best ++ [x]
      else best) []

/-- From csp.py: `argmin_random_tie(seq, key)` collects all minimizers and
returns `random.choice(best)`.  The call to `random.choice` is modelled by an
oracle `pick`; `pick` returning `none` models the `IndexError` raised by
`random.choice` on an empty list. -/
def argmin_random_tie (pick : List V → Option V) (seq : List V) (key : V → Nat) :
    Option V :=
  pick (argminList seq key)

/-- The `CSP` class of csp.py: variables (regions), per-variable domains
(colors), the neighbor graph and the binary constraint.  Python stores
`domains` and `neighbors` as dicts; they are modelled as total functions
(`neighbors` matching `self.neighbors.get(var, [])`, which defaults to the
empty list).  The mutable fields `curr_domains` and `nassigns` are threaded
separately through the search state. -/
structure CSP (V A : Type) where
  «variables» : List V
  domains : V → List A
  neighbors : V → List V
  constraints : V → A → V → A → Bool

/-- Lookup in a Python dict modelled as an association list
(`assignment[var]` / `var in assignment`). -/
def lookupd (assignment : List (V × A)) (v : V) : Option A :=
  (assignment.find? (fun p => decide (p.1 = v))).map (·.2)

/-- The `CSP.assign` dict update `assignment[var] = val`: overwrite the
binding in place if the key is present, else append it.  (The `nassigns`
counter increment is performed by the caller in the engine.) -/
def assign (assignment : List (V × A)) (var : V) (val : A) : List (V × A) :=
  if assignment.any (fun p => decide (p.1 = var)) then
    assignment.map (fun p => if p.1 = var then (var, val) else p)
  else
    assignment ++ [(var, val)]

/-- The `CSP.unassign` method: `if var in assignment: del assignment[var]`. -/
def unassign (assignment : List (V × A)) (var : V) : List (V × A) :=
  assignment.filter (fun p => decide (p.1 ≠ var))

/-- The `CSP.nconflicts` method: how many neighbors of `var` are already
assigned a value violating the constraint against `(var, val)`. -/
def nconflicts (csp : CSP V A) (var : V) (val : A) (assignment : List (V × A)) :
    Nat :=
  (csp.neighbors var).countP (fun n =>
    match lookupd assignment n with
    | some b => !(csp.constraints var val n b)
    | none => false)

/-- Pointwise update of a working-domains function (mutation of the dict entry
`curr_domains[var]`). -/
def updateDomain (d : V → List A) (var : V) (l : List A) : V → List A :=
  fun v => if v = var then l else d v

/-- The `CSP.support_pruning` method: lazily initialize the working domains
from copies of the original domains (a no-op when already initialized). -/
def support_pruning (csp : CSP V A) (curr : Option (V → List A)) : V → List A :=
  curr.getD csp.domains

/-- The `CSP.suppose` method: ensure working domains exist, restrict the
domain of `var` to `[value]`, and return the removed values as a fresh
removal log. -/
def suppose (csp : CSP V A) (curr : Option (V → List A)) (var : V) (value : A) :
    (V → List A) × List (V × A) :=
  let d := support_pruning csp curr
  (updateDomain d var [value], ((d var).filter (fun v => decide (v ≠ value))).map (fun v => (var, v)))

/-- The `CSP.prune` method: remove `value` from the working domain of `var`
if present (Python `list.remove` deletes the first occurrence) and append the
removal to the log. -/
def prune (d : V → List A) (var : V) (value : A) (removals : List (V × A)) :
    (V → List A) × List (V × A) :=
  if value ∈ d var then
    (updateDomain d var ((d var).erase value), removals ++ [(var, value)])
  else
    (d, removals)

/-- The `CSP.choices` method: `(self.curr_domains or self.domains)[var]`.
Python's `or` falls back to the original domains both when `curr_domains` is
`None` and when it is an empty dict; the dict built by `support_pruning` is
empty exactly when the variable list is empty. -/
def choices (csp : CSP V A) (curr : Option (V → List A)) (var : V) : List A :=
  match curr with
  | some d => if csp.variables.isEmpty then csp.domains var else d var
  | none => csp.domains var

/-- The `CSP.restore` method: re-append every logged value to the working
domain of its variable, in log order.  (The source asserts that the working
domains are initialized; the engine guarantees this by calling `suppose`
before every `restore`.) -/
def restore (d : V → List A) (removals : List (V × A)) : V → List A :=
  removals.foldl (fun d p => updateDomain d p.1 (d p.1 ++ [p.2])) d

/-- Variable-selection strategies (`select_unassigned_variable`): they read
the assignment and the csp, including its `curr_domains` state. -/
abbrev SelFn (V A : Type) :=
  List (V × A) → CSP V A → Option (V → List A) → Option V

/-- Value-ordering strategies (`order_domain_values`). -/
abbrev OrdFn (V A : Type) :=
  V → List (V × A) → CSP V A → Option (V → List A) → List A

/-- Inference strategies.  The engine calls them right after `suppose`, so
the working domains are initialized; they receive and return the working
domains together with the success flag and the extended removal log. -/
abbrev InfFn (V A : Type) :=
  CSP V A → V → A → List (V × A) → (V → List A) → List (V × A) →
    Bool × (V → List A) × List (V × A)

/-- From csp.py: `first_unassigned_variable` takes the first variable not in
the assignment (`first` raises `StopIteration`, i.e. `none`, if all are
assigned). -/
def first_unassigned_variable (assignment : List (V × A)) (csp : CSP V A)
    (_curr : Option (V → List A)) : Option V :=
  first (csp.variables.filter (fun v => (lookupd assignment v).isNone))

/-- From csp.py: `num_legal_values`: size of the working domain when
initialized, otherwise the count of conflict-free values of the original
domain. -/
def num_legal_values (csp : CSP V A) (var : V) (assignment : List (V × A))
    (curr : Option (V → List A)) : Nat :=
  match curr with
  | some d => (d var).length
  | none =>
    count_true ((csp.domains var).map (fun val =>
      decide (nconflicts csp var val assignment = 0)))

/-- From csp.py: the MRV heuristic with its random tie-break, parametrized by
the `random.choice` oracle `pick`. -/
def mrv (pick : List V → Option V) : SelFn V A :=
  fun assignment csp curr =>
    argmin_random_tie pick
      (csp.variables.filter (fun v => (lookupd assignment v).isNone))
      (fun v => num_legal_values csp v assignment curr)

/-- From csp.py: `unordered_domain_values` tries values in domain order. -/
def unordered_domain_values : OrdFn V A :=
  fun var _assignment csp curr => choices csp curr var

/-- From csp.py: the LCV heuristic, `sorted(csp.choices(var), key=...)`.
Python's `sorted` is an ascending stable sort; a stable sort's output is
uniquely determined, and it is modelled by `List.insertionSort` (stable and
ascending with this comparison). -/
def lcv : OrdFn V A :=
  fun var assignment csp curr =>
    (choices csp curr var).insertionSort
      (fun x y => nconflicts csp var x assignment ≤ nconflicts csp var y assignment)

/-- From csp.py: the no-op inference strategy. -/
def no_inference : InfFn V A :=
  fun _csp _var _value _assignment d removals => (true, d, removals)

/-- The inner loop of `forward_checking`: for each `b` in a snapshot of the
working domain of neighbor `B`, prune `b` when it conflicts with
`(var, value)`. -/
def fcInner (csp : CSP V A) (var : V) (value : A) (B : V)
    (d : V → List A) (removals : List (V × A)) :
    (V → List A) × List (V × A) :=
  (d B).foldl (fun p b =>
    if csp.constraints var value B b then p else prune p.1 B b p.2) (d, removals)

/-- The neighbor loop of `forward_checking`: skip assigned neighbors, prune
conflicting values from the others, and fail as soon as a working domain
becomes empty. -/
def fcAux (csp : CSP V A) (var : V) (value : A) (assignment : List (V × A)) :
    List V → (V → List A) → List (V × A) → Bool × (V → List A) × List (V × A)
  | [], d, removals => (true, d, removals)
  | B :: Bs, d, removals =>
    if (lookupd assignment B).isSome then
      fcAux csp var value assignment Bs d removals
    else
      let p := fcInner csp var value B d removals
      if (p.1 B).isEmpty then (false, p.1, p.2)
      else fcAux csp var value assignment Bs p.1 p.2

/-- From csp.py: `forward_checking`.  (The source first calls
`support_pruning`, a no-op here because the engine initializes the working
domains via `suppose` before invoking inference.) -/
def forward_checking : InfFn V A :=
  fun csp var value assignment d removals =>
    fcAux csp var value assignment (csp.neighbors var) d removals

/-- The six trace event kinds of `backtracking_search`. -/
inductive EvKind
  | TRY | CONFLICT | ASSIGN | INFER_FAIL | BACKTRACK | GOAL
  deriving DecidableEq, Repr

/-- A trace record appended by `log`: step counter, current depth, event
kind, the variable and value involved, and a snapshot of the assignment. -/
structure Event (V A : Type) where
  step : Nat
  depth : Nat
  event : EvKind
  var : Option V
  val : Option A
  assignment : List (V × A)
  deriving DecidableEq, Repr

/-- The exceptional outcomes of a solve: `RuntimeError` on trace overflow,
the top-level `AssertionError`, `StopIteration` escaping from `first`, and
the fuel-exhaustion artifact of the embedding (Python recursion is unbounded;
adequate fuel never reaches it). -/
inductive Err
  | traceOverflow | invalidSolution | stopIteration | outOfFuel
  deriving DecidableEq, Repr

/-- The mutable state threaded through a solve: the `curr_domains` and
`nassigns` fields of the `CSP` object and the `step` counter and `trace`
list enclosed by `backtracking_search`. -/
structure BT (V A : Type) where
  curr : Option (V → List A)
  nassigns : Nat
  step : Nat
  trace : Option (List (Event V A))

/-- The nested `log` function of `backtracking_search`: a no-op when no trace
is collected; otherwise increment the step counter, raise `RuntimeError` when
it exceeds `max_steps`, and append the event record. -/
def log (maxSteps : Option Nat) (st : BT V A) (event : EvKind)
    (assignment : List (V × A)) (var : Option V) (val : Option A) :
    Except Err (BT V A) :=
  match st.trace with
  | none => .ok st
  | some t =>
    let step := st.step + 1
    if (match maxSteps with | some m => decide (m < step) | none => false) then
      .error .traceOverflow
    else
      .ok { st with
              step := step,
              trace := some (t ++ [⟨step, assignment.length, event, var, val, assignment⟩]) }

/-- The nested `is_goal` check of `backtracking_search`: all variables
assigned (by dict size) and no variable in conflict.  (For an assignment not
covering the variables despite having the right size the source would raise
`KeyError` on `assignment[v]`; engine-produced assignments never do, and the
model simply reports failure there.) -/
def is_goal (csp : CSP V A) (assignment : List (V × A)) : Bool :=
  if assignment.length ≠ csp.variables.length then false
  else csp.variables.all (fun v =>
    match lookupd assignment v with
    | some b => decide (nconflicts csp v b assignment = 0)
    | none => false)

/-- The `nassigns` increment performed by `CSP.assign`. -/
def bumpAssigns (st : BT V A) : BT V A :=
  { st with nassigns := st.nassigns + 1 }

/-- Mutation of the `curr_domains` field of the `CSP` object. -/
def setCurr (st : BT V A) (d : V → List A) : BT V A :=
  { st with curr := some d }

/-- The `csp.restore(removals)` call on the state: re-insert the logged
values into the working domains.  (The source asserts the working domains
are initialized; the engine establishes this by calling `suppose` first, so
the `none` case is unreachable and left unchanged.) -/
def restoreSt (st : BT V A) (removals : List (V × A)) : BT V A :=
  { st with curr := st.curr.map (fun d => restore d removals) }

/-- The value loop of `backtrack` (`for value in order_domain_values(...)`),
with the recursive call abstracted as `bt`.  After a failed subtree or failed
inference the working domains are restored, the variable unassigned, a
BACKTRACK event logged, and the loop continues with the remaining values.
(The `restore` assert on initialized domains cannot fire: `suppose` runs
first; `Option.map` keeps the model total.) -/
def tryVals (csp : CSP V A) (inf : InfFn V A) (maxSteps : Option Nat)
    (bt : List (V × A) → BT V A → Except Err (Option (List (V × A)) × BT V A))
    (var : V) (assignment : List (V × A)) :
    List A → BT V A → Except Err (Option (List (V × A)) × BT V A)
  | [], st => .ok (none, st)
  | value :: rest, st =>
    match log maxSteps st .TRY assignment (some var) (some value) with
    | .error e => .error e
    | .ok st =>
      if nconflicts csp var value assignment ≠ 0 then
        match log maxSteps st .CONFLICT assignment (some var) (some value) with
        | .error e => .error e
        | .ok st => tryVals csp inf maxSteps bt var assignment rest st
      else
        -- csp.assign(var, value, assignment)
        match log maxSteps (bumpAssigns st) .ASSIGN (assign assignment var value)
            (some var) (some value) with
        | .error e => .error e
        | .ok st =>
          -- removals = csp.suppose(var, value); ok = inference(...)
          let r := inf csp var value (assign assignment var value)
            (suppose csp st.curr var value).1 (suppose csp st.curr var value).2
          if r.1 then
            match bt (assign assignment var value) (setCurr st r.2.1) with
            | .error e => .error e
            | .ok (some result, st') => .ok (some result, st')
            | .ok (none, st') =>
              -- csp.restore(removals); csp.unassign(var, assignment); log BACKTRACK
              match log maxSteps (restoreSt st' r.2.2) .BACKTRACK
                  (unassign (assign assignment var value) var)
                  (some var) (some value) with
              | .error e => .error e
              | .ok st'' =>
                tryVals csp inf maxSteps bt var
                  (unassign (assign assignment var value) var) rest st''
          else
            match log maxSteps (setCurr st r.2.1) .INFER_FAIL
                (assign assignment var value) (some var) (some value) with
            | .error e => .error e
            | .ok st =>
              -- same rollback as after a failed subtree
              match log maxSteps (restoreSt st r.2.2) .BACKTRACK
                  (unassign (assign assignment var value) var)
                  (some var) (some value) with
              | .error e => .error e
              | .ok st'' =>
                tryVals csp inf maxSteps bt var
                  (unassign (assign assignment var value) var) rest st''

/-- The nested recursive `backtrack` of `backtracking_search`, with explicit
fuel standing for the unbounded Python recursion. -/
def backtrack (csp : CSP V A) (sel : SelFn V A) (ord : OrdFn V A)
    (inf : InfFn V A) (maxSteps : Option Nat) :
    Nat → List (V × A) → BT V A → Except Err (Option (List (V × A)) × BT V A)
  | 0, _, _ => .error .outOfFuel
  | fuel + 1, assignment, st =>
    if assignment.length = csp.variables.length then
      match log maxSteps st .GOAL assignment none none with
      | .error e => .error e
      | .ok st => .ok (some assignment, st)
    else
      match sel assignment csp st.curr with
      | none => .error .stopIteration
      | some var =>
        tryVals csp inf maxSteps (backtrack csp sel ord inf maxSteps fuel) var
          assignment (ord var assignment csp st.curr) st

/-- From csp.py: `backtracking_search`.  Runs `backtrack` from the empty
assignment on a fresh state (`curr_domains = None`, counters at zero, the
caller-supplied trace list), then validates a non-`None` result with
`is_goal`, raising `AssertionError` on an invalid solution.  Returns the
result together with the final trace. -/
def backtracking_search (csp : CSP V A) (sel : SelFn V A) (ord : OrdFn V A)
    (inf : InfFn V A) (trace : Option (List (Event V A))) (maxSteps : Option Nat)
    (fuel : Nat) :
    Except Err (Option (List (V × A)) × Option (List (Event V A))) :=
  match backtrack csp sel ord inf maxSteps fuel [] ⟨none, 0, 0, trace⟩ with
  | .error e => .error e
  | .ok (some result, st') =>
    if is_goal csp result then .ok (some result, st'.trace)
    else .error .invalidSolution
  | .ok (none, st') => .ok (none, st'.trace)

/-- From csp.py: `different_values_constraint`. -/
def different_values_constraint (_A : Str) (a : A) (_B : Str) (b : A) : Bool :=
  decide (a ≠ b)

/-- Python `s.split(c)` for a single separator character: split at every
occurrence, keeping empty pieces. -/
def splitChar (c : Char) : Str → List Str
  | [] => [[]]
  | x :: xs =>
    match splitChar c xs with
    | [] => if x = c then [[], []] else [[x]]
    | r :: rs => if x = c then [] :: r :: rs else (x :: r) :: rs

/-- Python `s.strip()`: drop leading and trailing whitespace. -/
def trim (s : Str) : Str :=
  ((s.dropWhile Char.isWhitespace).reverse.dropWhile Char.isWhitespace).reverse

/-- Python `s.split()` (no arguments): split on whitespace runs, discarding
empty pieces. -/
def splitWS (s : Str) : List Str :=
  (s.splitOnP Char.isWhitespace).filter (fun t => decide (t ≠ []))

/-- Lexicographic comparison of Python strings (by code point), as used by
`sorted` on the adjacency lists. -/
def leStr : Str → Str → Bool
  | [], _ => true
  | _ :: _, [] => false
  | x :: xs, y :: ys =>
    if x.toNat < y.toNat then true
    else if x.toNat = y.toNat then leStr xs ys
    else false

/-- Python `sorted(set(v))` on a list of strings (an ascending sort of the
distinct elements, by code-point order). -/
def sortedSet (v : List Str) : List Str :=
  v.dedup.insertionSort (fun a b => leStr a b = true)

/-- Python `neighbors.get(var, [])` and lookup in the parsed graph dict. -/
def getNeighbors (g : List (V × List V)) (k : V) : List V :=
  (lookupd g k).getD []

/-- `defaultdict(list)` update `graph[k].append(v)`: append to the entry of
`k`, creating it (at the end, matching dict insertion order) if missing. -/
def addEntry (g : List (V × List V)) (k v : V) : List (V × List V) :=
  if g.any (fun p => decide (p.1 = k)) then
    g.map (fun p => if p.1 = k then (p.1, p.2 ++ [v]) else p)
  else
    g ++ [(k, [v])]

/-- The body of the `for spec in specs` loop of `parse_neighbors`: entries
without a colon are skipped (`continue`); otherwise split at the first colon
(`spec.split(':', 1)`), strip the head, and append both directions of every
adjacency. -/
def process_spec (spec : Str) (g : List (Str × List Str)) : List (Str × List Str) :=
  if ¬ spec.contains ':' then g
  else
    let A := trim (spec.takeWhile (fun x => decide (x ≠ ':')))
    let Aneigh := (spec.dropWhile (fun x => decide (x ≠ ':'))).drop 1
    (splitWS Aneigh).foldl (fun g B => addEntry (addEntry g A B) B A) g

/-- From csp.py: `parse_neighbors`: split the text at semicolons, strip and
drop empty entries, build the symmetrized adjacency dict, and finally
deduplicate and sort every adjacency list. -/
def parse_neighbors (neighbors : Str) : List (Str × List Str) :=
  let specs := ((splitChar ';' neighbors).map trim).filter (fun s => decide (s ≠ []))
  let graph := specs.foldl (fun g spec => process_spec spec g) []
  graph.map (fun p => (p.1, sortedSet p.2))

/-- From csp.py: `MapColoringCSP` on an already-parsed adjacency dict:
variables are the dict keys, every domain is a copy of the color list, and
the constraint is `different_values_constraint`. -/
def MapColoringCSP (colors : List A) (neighbors : List (Str × List Str)) :
    CSP Str A :=
  ⟨neighbors.map (·.1), fun _ => colors, fun v => getNeighbors neighbors v,
    different_values_constraint⟩

/-- The `isinstance(neighbors, str)` branch of `MapColoringCSP`: parse the
textual notation first. -/
def MapColoringCSPStr (colors : List A) (neighbors : Str) : CSP Str A :=
  MapColoringCSP colors (parse_neighbors neighbors)

/-- From coloring_map.py: `solve_map_coloring`: build the CSP from the region
adjacency and the domain letters, run `backtracking_search` with MRV
(parametrized by the `random.choice` oracle `pick`), LCV and forward
checking, collecting a trace bounded by `max_steps` (default 50000), and
optionally filter the trace by event kind. -/
def solve_map_coloring (pick : List Str → Option Str)
    (neighbor_dict : List (Str × List Str)) (domain_letters : Str) (fuel : Nat)
    (max_steps : Nat := 50000) (log_events : Option (List EvKind) := none) :
    Except Err (Option (List (Str × Char)) × List (Event Str Char)) :=
  let regions_csp := MapColoringCSP domain_letters neighbor_dict
  match backtracking_search regions_csp (mrv pick) lcv forward_checking
      (some []) (some max_steps) fuel with
  | .error e => .error e
  | .ok (solution, tr) =>
    let trace := tr.getD []
    .ok (solution,
      match log_events with
      | none => trace
      | some evs => trace.filter (fun t => evs.contains t.event))

/-!  Specification-side definitions, used to state the claims. -/

/-- Specification-level description of the forward-checking neighbor loop
(written from the spec sentence, to be compared with the implementation
`fcAux`): for every not-yet-assigned neighbor `B` of `var`, the working
domain of `B` loses exactly the values conflicting with `(var, value)`, each
removal is appended to the log, and the loop reports failure as soon as a
working domain becomes empty, leaving later neighbors unprocessed. -/
def forward_checking_spec (csp : CSP V A) (var : V) (value : A)
    (assignment : List (V × A)) :
    List V → (V → List A) → List (V × A) → Bool × (V → List A) × List (V × A)
  | [], d, removals => (true, d, removals)
  | B :: Bs, d, removals =>
    if (lookupd assignment B).isSome then
      forward_checking_spec csp var value assignment Bs d removals
    else
      let d' := updateDomain d B ((d B).filter (fun b => csp.constraints var value B b))
      let removals' := removals ++
        ((d B).filter (fun b => !(csp.constraints var value B b))).map (fun b => (B, b))
      if (d' B).isEmpty then (false, d', removals')
      else forward_checking_spec csp var value assignment Bs d' removals'

/-- A total coloring satisfying the CSP: every variable receives a value from
its own domain and every constrained pair of variables satisfies the binary
constraint.  A neighbor graph whose chromatic number exceeds the number of
available labels is exactly one for which no such coloring exists. -/
def isSolution (csp : CSP V A) (f : V → A) : Prop :=
  (∀ v ∈ csp.variables, f v ∈ csp.domains v) ∧
  (∀ v ∈ csp.variables, ∀ n ∈ csp.neighbors v, n ∈ csp.variables →
    csp.constraints v (f v) n (f n) = true)

instance (csp : CSP V A) (f : V → A) : Decidable (isSolution csp f) := by
  unfold isSolution; infer_instance

/-- A sequence of pruning operations on initialized working domains,
accumulating one removal log: starting from `d` with an empty log, each step
either restricts a variable to one of its currently available values
(`suppose`, whose fresh removal list is appended to the accumulated log) or
prunes a single value (`prune`, which appends to the log itself). -/
inductive PruneSeq (csp : CSP V A) :
    (V → List A) → List (V × A) → (V → List A) → Prop
  | refl (d : V → List A) : PruneSeq csp d [] d
  | sup {d : V → List A} {lg : List (V × A)} {d' : V → List A}
      (h : PruneSeq csp d lg d') (var : V) (value : A) (hmem : value ∈ d' var) :
      PruneSeq csp d (lg ++ (suppose csp (some d') var value).2)
        (suppose csp (some d') var value).1
  | pr {d : V → List A} {lg : List (V × A)} {d' : V → List A}
      (h : PruneSeq csp d lg d') (var : V) (value : A) :
      PruneSeq csp d (prune d' var value lg).2 (prune d' var value lg).1

/-- The inner loop of `forward_checking` restricted to the single domain list
it actually modifies: fold over the snapshot `c`, with `s` the live domain of
the neighbor `B`.  Auxiliary view of `fcInner` used to reason about it. -/
def fcInnerList (csp : CSP V A) (var : V) (value : A) (B : V)
    (c : List A) (s : List A) (rems : List (V × A)) : List A × List (V × A) :=
  c.foldl (fun q b =>
    if csp.constraints var value B b then q
    else if b ∈ q.1 then (q.1.erase b, q.2 ++ [(B, b)]) else q) (s, rems)

/-- Well-formedness of an assignment dict: keys are distinct and are
variables of the CSP. -/
def KeysOK (csp : CSP V A) (a : List (V × A)) : Prop :=
  (a.map (·.1)).Nodup ∧ ∀ p ∈ a, p.1 ∈ csp.variables

/-- Every assigned value belongs to the original domain of its variable. -/
def ValsOK (csp : CSP V A) (a : List (V × A)) : Prop :=
  ∀ p ∈ a, p.2 ∈ csp.domains p.1

/-- Every value of every initialized working domain belongs to the original
domain of its variable. -/
def CurrOK (csp : CSP V A) (st : BT V A) : Prop :=
  ∀ d, st.curr = some d → ∀ v, ∀ b ∈ d v, b ∈ csp.domains v

/-- The partial assignment is conflict-free: every assigned variable has no
assigned neighbor violating the constraint. -/
def NoConf (csp : CSP V A) (a : List (V × A)) : Prop :=
  ∀ p ∈ a, ∀ n ∈ csp.neighbors p.1, ∀ bn, lookupd a n = some bn →
    csp.constraints p.1 p.2 n bn = true

/-- The recorded step numbers of a trace are exactly the positions shifted by
one (so they increase strictly). -/
def StepsOK (t : List (Event V A)) : Prop :=
  ∀ i (h : i < t.length), (t.get ⟨i, h⟩).step = i + 1

/-- Invariant tying the step counter to the collected trace. -/
def TraceOK (st : BT V A) : Prop :=
  ∃ t, st.trace = some t ∧ st.step = t.length ∧ StepsOK t

/-!  Concrete instances used to evaluate the theorems on explicit inputs. -/

/-- A one-variable CSP with domain `[0, 1, 2]` and no neighbors. -/
def exCSP : CSP Nat Nat :=
  ⟨[0], fun _ => [0, 1, 2], fun _ => [], fun _ a _ b => decide (a ≠ b)⟩

/-- Initialized working domains of `exCSP`. -/
def exDom : Nat → List Nat := fun _ => [0, 1, 2]

/-- The odd cycle of length 5 with two labels: adjacent vertices must
differ.  Its chromatic number is 3, exceeding the 2 available labels. -/
def pentagon : CSP (Fin 5) (Fin 2) :=
  ⟨[0, 1, 2, 3, 4], fun _ => [0, 1], fun v => [v + 1, v + 4],
    fun _ a _ b => decide (a ≠ b)⟩

/-- The 4-cycle with two labels (a 2-colorable instance). -/
def squareCSP : CSP (Fin 4) (Fin 2) :=
  ⟨[0, 1, 2, 3], fun _ => [0, 1], fun v => [v + 1, v + 3],
    fun _ a _ b => decide (a ≠ b)⟩

/-- A deterministic stand-in for the `random.choice` oracle: take the first
element. -/
def pickHead : List Str → Option Str := List.head?

/-- A two-region map used to exercise `solve_map_coloring`. -/
def exMap : List (Str × List Str) :=
  [(['A'], [['B']]), (['B'], [['A']])]

/-!  Theorems.  First, basic lemmas about the dict and domain operations. -/

theorem lookupd_cons (p : V × A) (a : List (V × A)) (v : V) :
    lookupd (p :: a) v = if p.1 = v then some p.2 else lookupd a v := by
  by_cases h : p.1 = v <;> simp [lookupd, List.find?_cons, h]

theorem lookupd_append (a b : List (V × A)) (v : V) :
    lookupd (a ++ b) v = (lookupd a v).or (lookupd b v) := by
  simp only [lookupd, List.find?_append]
  cases List.find? (fun q => decide (q.1 = v)) a <;> simp

theorem lookupd_eq_none_iff (a : List (V × A)) (v : V) :
    lookupd a v = none ↔ ∀ p ∈ a, p.1 ≠ v := by
  simp [lookupd, List.find?_eq_none]

theorem lookupd_mem {a : List (V × A)} {v : V} {b : A}
    (h : lookupd a v = some b) : (v, b) ∈ a := by
  simp only [lookupd, Option.map_eq_some'] at h
  obtain ⟨q, hq, hq2⟩ := h
  have hm := List.mem_of_find?_eq_some hq
  have hp := List.find?_some hq
  simp only [decide_eq_true_eq] at hp
  have : q = (v, b) := by
    cases q; simp_all
  rwa [this] at hm

theorem mem_lookupd_of_nodup {a : List (V × A)} {v : V} {b : A}
    (hnd : (a.map (·.1)).Nodup) (h : (v, b) ∈ a) : lookupd a v = some b := by
  induction a with
  | nil => cases h
  | cons p t ih =>
    simp only [List.map_cons, List.nodup_cons] at hnd
    rcases List.mem_cons.mp h with h | h
    · subst h; simp [lookupd_cons]
    · have hne : p.1 ≠ v := by
        intro he
        exact hnd.1 (he ▸ List.mem_map.mpr ⟨(v, b), h, rfl⟩)
      rw [lookupd_cons, if_neg hne]
      exact ih hnd.2 h

theorem lookupd_isSome_iff (a : List (V × A)) (v : V) :
    (lookupd a v).isSome ↔ v ∈ a.map (·.1) := by
  constructor
  · intro h
    obtain ⟨b, hb⟩ := Option.isSome_iff_exists.mp h
    exact List.mem_map.mpr ⟨(v, b), lookupd_mem hb, rfl⟩
  · intro h
    obtain ⟨p, hp, he⟩ := List.mem_map.mp h
    cases hop : lookupd a v with
    | some b => rfl
    | none => exact absurd he ((lookupd_eq_none_iff a v).mp hop p hp)

theorem assign_of_fresh {a : List (V × A)} {var : V} (value : A)
    (h : lookupd a var = none) : assign a var value = a ++ [(var, value)] := by
  have hall := (lookupd_eq_none_iff a var).mp h
  have : a.any (fun p => decide (p.1 = var)) = false := by
    simp only [List.any_eq_false, decide_eq_true_eq]
    exact fun p hp => hall p hp
  simp [assign, this]

theorem unassign_append_fresh {a : List (V × A)} {var : V} (value : A)
    (h : lookupd a var = none) : unassign (a ++ [(var, value)]) var = a := by
  have hall := (lookupd_eq_none_iff a var).mp h
  simp only [unassign, List.filter_append]
  have h1 : a.filter (fun p => decide (p.1 ≠ var)) = a :=
    List.filter_eq_self.mpr (fun p hp => by simpa using hall p hp)
  rw [h1]
  simp

theorem updateDomain_self (d : V → List A) (var : V) :
    updateDomain d var (d var) = d := by
  funext v; by_cases h : v = var <;> simp [updateDomain, h]

theorem updateDomain_collapse (d : V → List A) (var : V) (l l' : List A) :
    updateDomain (updateDomain d var l) var l' = updateDomain d var l' := by
  funext v; by_cases h : v = var <;> simp [updateDomain, h]

theorem updateDomain_apply_self (d : V → List A) (var : V) (l : List A) :
    updateDomain d var l var = l := by
  simp [updateDomain]

theorem updateDomain_apply_other (d : V → List A) {v var : V} (l : List A)
    (h : v ≠ var) : updateDomain d var l v = d v := by
  simp [updateDomain, h]

/-!  The forward-checking inner loop: localization to the modified entry and
its characterization as a filter. -/

theorem fcInner_fold_general (csp : CSP V A) (var : V) (value : A) (B : V)
    (d : V → List A) :
    ∀ (c s : List A) (rems : List (V × A)),
      c.foldl (fun p b => if csp.constraints var value B b then p
          else prune p.1 B b p.2) (updateDomain d B s, rems)
      = (updateDomain d B (fcInnerList csp var value B c s rems).1,
         (fcInnerList csp var value B c s rems).2) := by
  intro c
  induction c with
  | nil => intro s rems; simp [fcInnerList]
  | cons b c ih =>
    intro s rems
    rw [List.foldl_cons]
    by_cases hb : csp.constraints var value B b
    · rw [if_pos hb]
      rw [ih s rems]
      simp only [fcInnerList, List.foldl_cons, if_pos hb]
    · rw [if_neg hb]
      by_cases hm : b ∈ s
      · have hm' : b ∈ updateDomain d B s B := by rwa [updateDomain_apply_self]
        rw [show prune (updateDomain d B s) B b rems
              = (updateDomain d B (s.erase b), rems ++ [(B, b)]) by
            simp [prune, hm, hm', updateDomain_apply_self, updateDomain_collapse]]
        rw [ih (s.erase b) (rems ++ [(B, b)])]
        simp only [fcInnerList, List.foldl_cons, if_neg hb, if_pos hm]
      · have hm' : b ∉ updateDomain d B s B := by rwa [updateDomain_apply_self]
        rw [show prune (updateDomain d B s) B b rems = (updateDomain d B s, rems) by
            simp [prune, hm']]
        rw [ih s rems]
        simp only [fcInnerList, List.foldl_cons, if_neg hb, if_neg hm]

theorem fcInnerList_cons_keep (csp : CSP V A) (var : V) (value : A) (B : V)
    {a : A} (ha : csp.constraints var value B a = true) :
    ∀ (c s : List A) (rems : List (V × A)),
      fcInnerList csp var value B c (a :: s) rems
      = (a :: (fcInnerList csp var value B c s rems).1,
         (fcInnerList csp var value B c s rems).2) := by
  intro c
  induction c with
  | nil => intro s rems; simp [fcInnerList]
  | cons b c ih =>
    intro s rems
    by_cases hb : csp.constraints var value B b
    · simp only [fcInnerList, List.foldl_cons, if_pos hb]
      exact ih s rems
    · have hba : b ≠ a := by intro he; rw [he] at hb; exact hb ha
      by_cases hm : b ∈ s
      · have hm' : b ∈ a :: s := List.mem_cons.mpr (Or.inr hm)
        have herase : (a :: s).erase b = a :: s.erase b :=
          List.erase_cons_tail (by simpa using (Ne.symm hba))
        simp only [fcInnerList, List.foldl_cons, if_neg hb, if_pos hm, if_pos hm', herase]
        exact ih (s.erase b) (rems ++ [(B, b)])
      · have hm' : b ∉ a :: s := by
          intro hc
          rcases List.mem_cons.mp hc with h | h
          · exact hba h
          · exact hm h
        simp only [fcInnerList, List.foldl_cons, if_neg hb, if_neg hm, if_neg hm']
        exact ih s rems

theorem fcInnerList_self (csp : CSP V A) (var : V) (value : A) (B : V) :
    ∀ (l : List A) (rems : List (V × A)),
      fcInnerList csp var value B l l rems
      = (l.filter (fun b => csp.constraints var value B b),
         rems ++ (l.filter (fun b => !(csp.constraints var value B b))).map
           (fun b => (B, b))) := by
  intro l
  induction l with
  | nil => intro rems; simp [fcInnerList]
  | cons a t ih =>
    intro rems
    by_cases ha : csp.constraints var value B a
    · simp only [fcInnerList, List.foldl_cons, if_pos ha]
      have := fcInnerList_cons_keep csp var value B ha t t rems
      simp only [fcInnerList] at this ih
      rw [this, ih rems]
      simp [List.filter_cons, ha]
    · have hm : a ∈ a :: t := List.mem_cons_self a t
      simp only [fcInnerList, List.foldl_cons, if_neg ha, if_pos hm,
        List.erase_cons_head]
      have := ih (rems ++ [(B, a)])
      simp only [fcInnerList] at this
      rw [this]
      simp [List.filter_cons, ha]

theorem fcInner_eq (csp : CSP V A) (var : V) (value : A) (B : V)
    (d : V → List A) (rems : List (V × A)) :
    fcInner csp var value B d rems
    = (updateDomain d B ((d B).filter (fun b => csp.constraints var value B b)),
       rems ++ ((d B).filter (fun b => !(csp.constraints var value B b))).map
         (fun b => (B, b))) := by
  have h0 : (d, rems) = ((updateDomain d B (d B), rems) : (V → List A) × List (V × A)) := by
    rw [updateDomain_self]
  unfold fcInner
  rw [h0, fcInner_fold_general csp var value B d (d B) (d B) rems,
    fcInnerList_self csp var value B (d B) rems]

theorem fcAux_eq_spec (csp : CSP V A) (var : V) (value : A)
    (assignment : List (V × A)) :
    ∀ (Bs : List V) (d : V → List A) (rems : List (V × A)),
      fcAux csp var value assignment Bs d rems
      = forward_checking_spec csp var value assignment Bs d rems := by
  intro Bs
  induction Bs with
  | nil => intro d rems; rfl
  | cons B Bs ih =>
    intro d rems
    by_cases hB : (lookupd assignment B).isSome
    · simp only [fcAux, forward_checking_spec, if_pos hB]
      exact ih d rems
    · simp only [fcAux, forward_checking_spec, if_neg hB, fcInner_eq]
      by_cases he : (updateDomain d B ((d B).filter
          (fun b => csp.constraints var value B b)) B).isEmpty
      · simp only [if_pos he]
      · simp only [if_neg he]
        exact ih _ _

/-- C3: the implementation of forward checking coincides with its
specification-level description: after committing a value to a variable,
every not-yet-assigned neighbor loses from its working domain exactly the
values conflicting with the committed pair (each removal appended to the
log, assigned neighbors untouched), and the procedure reports failure if and
only if it reaches a neighbor whose working domain becomes empty, stopping
there without processing the remaining neighbors. -/
theorem C3_forward_checking_matches_spec (csp : CSP V A) (var : V) (value : A)
    (assignment : List (V × A)) (d : V → List A) (removals : List (V × A)) :
    forward_checking csp var value assignment d removals
    = forward_checking_spec csp var value assignment (csp.neighbors var) d removals :=
  fcAux_eq_spec csp var value assignment (csp.neighbors var) d removals

/-!  Restoring a removal log: membership characterization and the round-trip
property. -/

theorem mem_restore :
    ∀ (rems : List (V × A)) (d : V → List A) (v : V) (a : A),
      a ∈ restore d rems v ↔ a ∈ d v ∨ (v, a) ∈ rems := by
  intro rems
  induction rems with
  | nil => intro d v a; simp [restore]
  | cons q rest ih =>
    intro d v a
    have h1 : restore d (q :: rest) = restore (updateDomain d q.1 (d q.1 ++ [q.2])) rest := by
      simp [restore, List.foldl_cons]
    rw [h1, ih]
    obtain ⟨qv, qa⟩ := q
    by_cases hv : v = qv
    · subst hv
      rw [updateDomain_apply_self]
      simp only [List.mem_append, List.mem_singleton, List.mem_cons, Prod.mk.injEq]
      tauto
    · rw [updateDomain_apply_other _ _ hv]
      simp only [List.mem_cons, Prod.mk.injEq]
      tauto

theorem prune_seq_key {csp : CSP V A} {d : V → List A} {lg : List (V × A)}
    {d' : V → List A} (h : PruneSeq csp d lg d') :
    ∀ (v : V) (a : A), (a ∈ d' v ∨ (v, a) ∈ lg) ↔ a ∈ d v := by
  induction h with
  | refl => intro v a; simp
  | sup h var value hmem ih =>
    intro v a
    simp only [suppose, support_pruning, Option.getD_some, List.mem_append, List.mem_map,
      List.mem_filter, decide_eq_true_eq]
    by_cases hv : v = var
    · subst hv
      rw [updateDomain_apply_self]
      simp only [List.mem_singleton]
      constructor
      · rintro (h | h | ⟨b, ⟨hb1, hb2⟩, hb3⟩)
        · exact (ih v a).mp (Or.inl (h.symm ▸ hmem))
        · exact (ih v a).mp (Or.inr h)
        · simp only [Prod.mk.injEq] at hb3
          exact (ih v a).mp (Or.inl (hb3.2 ▸ hb1))
      · intro ha
        rcases (ih v a).mpr ha with h | h
        · by_cases he : a = value
          · exact Or.inl he
          · exact Or.inr (Or.inr ⟨a, ⟨h, he⟩, rfl⟩)
        · exact Or.inr (Or.inl h)
    · rw [updateDomain_apply_other _ _ hv]
      constructor
      · rintro (h | h | ⟨b, _, hb3⟩)
        · exact (ih v a).mp (Or.inl h)
        · exact (ih v a).mp (Or.inr h)
        · simp only [Prod.mk.injEq] at hb3
          exact absurd hb3.1.symm hv
      · intro ha
        rcases (ih v a).mpr ha with h | h
        · exact Or.inl h
        · exact Or.inr (Or.inl h)
  | pr h var value ih =>
    intro v a
    rename_i lg1 d1
    by_cases hm : value ∈ d1 var
    · simp only [prune, if_pos hm]
      by_cases hv : v = var
      · subst hv
        rw [updateDomain_apply_self]
        simp only [List.mem_append, List.mem_singleton, Prod.mk.injEq]
        constructor
        · rintro (h | h | h)
          · exact (ih v a).mp (Or.inl (List.mem_of_mem_erase h))
          · exact (ih v a).mp (Or.inr h)
          · exact (ih v a).mp (Or.inl (h.2 ▸ hm))
        · intro ha
          rcases (ih v a).mpr ha with h | h
          · by_cases he : a = value
            · exact Or.inr (Or.inr ⟨trivial, he⟩)
            · exact Or.inl ((List.mem_erase_of_ne he).mpr h)
          · exact Or.inr (Or.inl h)
      · rw [updateDomain_apply_other _ _ hv]
        simp only [List.mem_append, List.mem_singleton, Prod.mk.injEq]
        constructor
        · rintro (h | h | h)
          · exact (ih v a).mp (Or.inl h)
          · exact (ih v a).mp (Or.inr h)
          · exact absurd h.1 hv
        · intro ha
          rcases (ih v a).mpr ha with h | h
          · exact Or.inl h
          · exact Or.inr (Or.inl h)
    · simp only [prune, if_neg hm]
      exact ih v a

/-- C5: pruning via suppose and prune, accumulating one removal log, and then
restoring that exact log yields a working domain equal, as a set of values,
to the working domain before the pruning began. -/
theorem C5_restore_roundtrip (csp : CSP V A) {d : V → List A}
    {lg : List (V × A)} {d' : V → List A} (h : PruneSeq csp d lg d') :
    ∀ (v : V) (a : A), a ∈ restore d' lg v ↔ a ∈ d v := by
  intro v a
  rw [mem_restore]
  exact prune_seq_key h v a

/-- Witness for C5: restricting the domain of variable 0 to value 1, then
pruning value 2 from it, and restoring the accumulated log recovers all
original values. -/
theorem C5_restore_roundtrip_witness :
    (0 ∈ restore (prune (suppose exCSP (some exDom) 0 1).1 0 2
          (suppose exCSP (some exDom) 0 1).2).1
        (prune (suppose exCSP (some exDom) 0 1).1 0 2
          (suppose exCSP (some exDom) 0 1).2).2 0
      ↔ 0 ∈ exDom 0) :=
  C5_restore_roundtrip exCSP
    (by
      have h0 : PruneSeq exCSP exDom [] exDom := PruneSeq.refl exDom
      have h1 := PruneSeq.sup h0 0 1 (by decide)
      have h2 := PruneSeq.pr h1 0 2
      simpa using h2)
    0 0

/-- C4 (amended): the working domains only ever contain values of the
original domains, never a superset: this holds for the initialization by
support_pruning, and is preserved by suppose (for a value of the current
working domain), by prune, and by restore (for a log recording previously
removed values, which therefore lie in the original domains).  The relative
order, however, is not preserved in general (see the counterexample). -/
theorem C4_working_domains_within_original (csp : CSP V A) :
    (∀ v, ∀ b ∈ support_pruning csp none v, b ∈ csp.domains v)
    ∧ (∀ d : V → List A, (∀ v, ∀ b ∈ d v, b ∈ csp.domains v) →
        ∀ (var : V) (value : A), value ∈ d var →
          ∀ v, ∀ b ∈ (suppose csp (some d) var value).1 v, b ∈ csp.domains v)
    ∧ (∀ d : V → List A, (∀ v, ∀ b ∈ d v, b ∈ csp.domains v) →
        ∀ (var : V) (value : A) (rems : List (V × A)),
          ∀ v, ∀ b ∈ (prune d var value rems).1 v, b ∈ csp.domains v)
    ∧ (∀ d : V → List A, (∀ v, ∀ b ∈ d v, b ∈ csp.domains v) →
        ∀ rems : List (V × A), (∀ q ∈ rems, q.2 ∈ csp.domains q.1) →
          ∀ v, ∀ b ∈ restore d rems v, b ∈ csp.domains v) := by
  refine ⟨?_, ?_, ?_, ?_⟩
  · intro v b hb
    simpa [support_pruning] using hb
  · intro d hd var value hval v b hb
    simp only [suppose, support_pruning, Option.getD_some] at hb
    by_cases hv : v = var
    · subst hv
      rw [updateDomain_apply_self] at hb
      simp only [List.mem_singleton] at hb
      subst hb
      exact hd _ _ hval
    · rw [updateDomain_apply_other _ _ hv] at hb
      exact hd v b hb
  · intro d hd var value rems v b hb
    by_cases hm : value ∈ d var
    · simp only [prune, if_pos hm] at hb
      by_cases hv : v = var
      · subst hv
        rw [updateDomain_apply_self] at hb
        exact hd v b (List.mem_of_mem_erase hb)
      · rw [updateDomain_apply_other _ _ hv] at hb
        exact hd v b hb
    · simp only [prune, if_neg hm] at hb
      exact hd v b hb
  · intro d hd rems hrems v b hb
    rcases (mem_restore rems d v b).mp hb with h | h
    · exact hd v b h
    · exact hrems (v, b) h

/-- Witness for C4: on the concrete one-variable CSP, suppose of an available
value followed by restore keeps the working domain inside the original
domain. -/
theorem C4_working_domains_within_original_witness :
    0 ∈ restore (suppose exCSP (some exDom) 0 1).1 (suppose exCSP (some exDom) 0 1).2 0 →
      0 ∈ exCSP.domains 0 :=
  fun hb =>
    (C4_working_domains_within_original exCSP).2.2.2
      (suppose exCSP (some exDom) 0 1).1
      (fun v b h => by
        revert h
        exact fun h =>
          (C4_working_domains_within_original exCSP).2.1 exDom
            (fun v b h => by simpa [exCSP, exDom] using h) 0 1 (by decide) v b h)
      (suppose exCSP (some exDom) 0 1).2 (by decide) 0 0 hb

/-- Counterexample for C4 as stated: the claim asserts the working domain is
always a subsequence of the original domain (same relative order) and that
this is preserved by restore; but after supposing value 1 for variable 0
(original domain `[0, 1, 2]`) and restoring the removal log, the working
domain is `[1, 0, 2]`, which is not a subsequence of `[0, 1, 2]`. -/
theorem C4_counterexample :
    ¬ (restore (suppose exCSP (some exDom) 0 1).1
        (suppose exCSP (some exDom) 0 1).2 0).Sublist (exCSP.domains 0) := by
  decide

/-!  The least-constraining-value orderer. -/

/-- C8: `lcv` returns the candidate values of the variable (a permutation of
`choices`), sorted ascending by the number of conflicts against currently
assigned neighbors, and values with equal conflict count keep their original
relative order (the filter at each conflict count is unchanged). -/
theorem C8_lcv_sorted_stable (csp : CSP V A) (var : V) (a : List (V × A))
    (curr : Option (V → List A)) :
    (lcv var a csp curr).Perm (choices csp curr var)
    ∧ List.Pairwise
        (fun x y => nconflicts csp var x a ≤ nconflicts csp var y a)
        (lcv var a csp curr)
    ∧ ∀ c : Nat,
        (lcv var a csp curr).filter (fun b => decide (nconflicts csp var b a = c))
        = (choices csp curr var).filter
            (fun b => decide (nconflicts csp var b a = c)) := by
  haveI hTot : IsTotal A (fun x y => nconflicts csp var x a ≤ nconflicts csp var y a) :=
    ⟨fun x y => Nat.le_total _ _⟩
  haveI hTr : IsTrans A (fun x y => nconflicts csp var x a ≤ nconflicts csp var y a) :=
    ⟨fun x y z h1 h2 => Nat.le_trans h1 h2⟩
  refine ⟨List.perm_insertionSort _ _, List.sorted_insertionSort _ _, ?_⟩
  intro c
  set L := choices csp curr var with hL
  set p : A → Bool := fun b => decide (nconflicts csp var b a = c) with hp
  have h1 : (L.filter p).Sublist L := List.filter_sublist L
  have h2 : List.Pairwise
      (fun x y => nconflicts csp var x a ≤ nconflicts csp var y a)
      (L.filter p) := by
    apply List.pairwise_of_forall_mem_list
    intro x hx y hy
    have hx' := List.of_mem_filter hx
    have hy' := List.of_mem_filter hy
    simp only [hp, decide_eq_true_eq] at hx' hy'
    omega
  have h3 : (L.filter p).Sublist
      (L.insertionSort (fun x y => nconflicts csp var x a ≤ nconflicts csp var y a)) :=
    List.sublist_insertionSort h2 h1
  have h5 : (L.filter p).Sublist
      ((L.insertionSort (fun x y => nconflicts csp var x a ≤ nconflicts csp var y a)).filter p) := by
    have h6 := h3.filter p
    have hfix : (L.filter p).filter p = L.filter p :=
      List.filter_eq_self.mpr (fun b hb => List.of_mem_filter hb)
    rwa [hfix] at h6
  have h4 : ((L.insertionSort
      (fun x y => nconflicts csp var x a ≤ nconflicts csp var y a)).filter p).length
      = (L.filter p).length :=
    ((List.perm_insertionSort _ L).filter p).length_eq
  exact (h5.eq_of_length h4.symm).symm

/-!  The textual neighbor parser. -/

theorem leStr_trans : ∀ x y z : Str,
    leStr x y = true → leStr y z = true → leStr x z = true
  | [], _, _ => by intro _ _; simp [leStr]
  | a :: x, [], z => by intro h _; simp [leStr] at h
  | a :: x, b :: y, [] => by intro _ h; simp [leStr] at h
  | a :: x, b :: y, c :: z => by
    intro h1 h2
    simp only [leStr] at h1 h2 ⊢
    by_cases hab : a.toNat < b.toNat
    · by_cases hbc : b.toNat < c.toNat
      · have hac : a.toNat < c.toNat := by omega
        simp [hac]
      · by_cases hbc2 : b.toNat = c.toNat
        · have hac : a.toNat < c.toNat := by omega
          simp [hac]
        · simp [hbc, hbc2] at h2
    · by_cases hab2 : a.toNat = b.toNat
      · simp only [if_neg hab, if_pos hab2] at h1
        by_cases hbc : b.toNat < c.toNat
        · have hac : a.toNat < c.toNat := by omega
          simp [hac]
        · by_cases hbc2 : b.toNat = c.toNat
          · simp only [if_neg hbc, if_pos hbc2] at h2
            have hac : ¬ a.toNat < c.toNat := by omega
            have hac2 : a.toNat = c.toNat := by omega
            simp only [if_neg hac, if_pos hac2]
            exact leStr_trans x y z h1 h2
          · simp [hbc, hbc2] at h2
      · simp [hab, hab2] at h1

theorem leStr_total : ∀ x y : Str, (leStr x y || leStr y x) = true
  | [], y => by simp [leStr]
  | a :: x, [] => by simp [leStr]
  | a :: x, b :: y => by
    simp only [leStr, Bool.or_eq_true]
    by_cases hab : a.toNat < b.toNat
    · left; simp [hab]
    · by_cases hab2 : a.toNat = b.toNat
      · have hba : ¬ b.toNat < a.toNat := by omega
        have hba2 : b.toNat = a.toNat := by omega
        simp only [if_neg hab, if_pos hab2, if_neg hba, if_pos hba2]
        have := leStr_total x y
        simpa using this
      · right
        have hba : b.toNat < a.toNat := by omega
        simp [hba]

theorem mem_sortedSet {l : List Str} {y : Str} : y ∈ sortedSet l ↔ y ∈ l := by
  unfold sortedSet
  rw [List.mem_insertionSort, List.mem_dedup]

theorem sortedSet_nodup (l : List Str) : (sortedSet l).Nodup :=
  ((List.perm_insertionSort _ l.dedup).symm).nodup (List.nodup_dedup l)

theorem sortedSet_sorted (l : List Str) :
    List.Pairwise (fun a b => leStr a b = true) (sortedSet l) := by
  haveI : IsTotal Str (fun a b => leStr a b = true) :=
    ⟨fun a b => by
      have := leStr_total a b
      simp only [Bool.or_eq_true] at this
      exact this⟩
  haveI : IsTrans Str (fun a b => leStr a b = true) :=
    ⟨fun a b c => leStr_trans a b c⟩
  exact List.sorted_insertionSort _ l.dedup

theorem getNeighbors_addEntry (g : List (Str × List Str)) (k v x : Str) :
    getNeighbors (addEntry g k v) x
    = getNeighbors g x ++ (if x = k then [v] else []) := by
  unfold addEntry
  by_cases hany : g.any (fun p => decide (p.1 = k))
  · rw [if_pos hany]
    have hcomp : ((fun p : Str × List Str => decide (p.1 = x)) ∘
        (fun p : Str × List Str => if p.1 = k then (p.1, p.2 ++ [v]) else p))
        = fun p : Str × List Str => decide (p.1 = x) := by
      funext p
      by_cases hp : p.1 = k <;> simp [hp]
    unfold getNeighbors lookupd
    rw [List.find?_map, hcomp]
    cases hfind : List.find? (fun p : Str × List Str => decide (p.1 = x)) g with
    | none =>
      have hx : x ≠ k := by
        intro he
        subst he
        simp only [List.any_eq_true, decide_eq_true_eq] at hany
        obtain ⟨p, hp, hp1⟩ := hany
        exact absurd (by simpa using hp1)
          ((List.find?_eq_none.mp hfind) p hp)
      simp [hx]
    | some e =>
      have he1 : e.1 = x := by simpa using List.find?_some hfind
      by_cases hek : e.1 = k
      · have hx : x = k := he1 ▸ hek
        simp [hek, hx]
      · have hx : x ≠ k := fun he => hek (he1.symm ▸ he)
        simp [hek, hx]
  · rw [if_neg hany]
    unfold getNeighbors
    rw [lookupd_append]
    by_cases hx : x = k
    · subst hx
      have hg : lookupd g x = none := by
        apply (lookupd_eq_none_iff g x).mpr
        intro p hp he
        exact hany (List.any_eq_true.mpr ⟨p, hp, by simp [he]⟩)
      simp [hg, lookupd_cons]
    · have hs : lookupd [(k, [v])] x = (none : Option (List Str)) := by
        rw [lookupd_cons]
        rw [if_neg (fun h : (((k, [v]) : Str × List Str)).1 = x => hx h.symm)]
        rfl
      rw [hs]
      cases hg : lookupd g x <;> simp [hx]

theorem mem_getNeighbors_addEdge (g : List (Str × List Str)) (A B x y : Str) :
    (y ∈ getNeighbors (addEntry (addEntry g A B) B A) x
      ↔ y ∈ getNeighbors g x ∨ (x = A ∧ y = B) ∨ (x = B ∧ y = A)) := by
  rw [getNeighbors_addEntry, getNeighbors_addEntry]
  by_cases hxA : x = A <;> by_cases hxB : x = B <;>
    simp [hxA, hxB, List.mem_append]

theorem sym_foldl_addEdge (A : Str) (Bs : List Str) :
    ∀ g : List (Str × List Str),
      (∀ x y, x ∈ getNeighbors g y ↔ y ∈ getNeighbors g x) →
      ∀ x y, x ∈ getNeighbors
          (Bs.foldl (fun g B => addEntry (addEntry g A B) B A) g) y
        ↔ y ∈ getNeighbors
          (Bs.foldl (fun g B => addEntry (addEntry g A B) B A) g) x := by
  induction Bs with
  | nil => intro g hg; exact hg
  | cons B Bs ih =>
    intro g hg
    rw [List.foldl_cons]
    apply ih
    intro x y
    rw [mem_getNeighbors_addEdge, mem_getNeighbors_addEdge, hg y x]
    tauto

theorem sym_process_spec (spec : Str) (g : List (Str × List Str))
    (hg : ∀ x y, x ∈ getNeighbors g y ↔ y ∈ getNeighbors g x) :
    ∀ x y, x ∈ getNeighbors (process_spec spec g) y
      ↔ y ∈ getNeighbors (process_spec spec g) x := by
  unfold process_spec
  by_cases hc : spec.contains ':'
  · simp only [hc, not_true_eq_false, if_false]
    exact sym_foldl_addEdge _ _ g hg
  · simp only [hc, not_false_eq_true, if_true]
    exact hg

theorem getNeighbors_map_sortedSet (g : List (Str × List Str)) (x y : Str) :
    y ∈ getNeighbors (g.map (fun p => (p.1, sortedSet p.2))) x
    ↔ y ∈ getNeighbors g x := by
  unfold getNeighbors lookupd
  have hcomp : ((fun p : Str × List Str => decide (p.1 = x)) ∘
      (fun p : Str × List Str => (p.1, sortedSet p.2)))
      = fun p : Str × List Str => decide (p.1 = x) := by
    funext p; rfl
  rw [List.find?_map, hcomp]
  cases hfind : List.find? (fun p : Str × List Str => decide (p.1 = x)) g with
  | none => simp
  | some e => simpa using mem_sortedSet

/-- C7: `parse_neighbors` produces a symmetric graph (B appears among the
neighbors of A exactly when A appears among those of B), every adjacency list
is duplicate-free and sorted (by code-point order), and an entry lacking the
colon separator is skipped by the parsing loop while the remaining entries
are still processed. -/
theorem C7_parse_neighbors (s : Str) :
    (∀ x y : Str, x ∈ getNeighbors (parse_neighbors s) y
        ↔ y ∈ getNeighbors (parse_neighbors s) x)
    ∧ (∀ (k : Str) (vs : List Str), (k, vs) ∈ parse_neighbors s →
        vs.Nodup ∧ List.Pairwise (fun a b => leStr a b = true) vs)
    ∧ (∀ (spec : Str) (g : List (Str × List Str)), spec.contains ':' = false →
        process_spec spec g = g) := by
  refine ⟨?_, ?_, ?_⟩
  · have hbase : ∀ (specs : List Str) (g : List (Str × List Str)),
        (∀ x y, x ∈ getNeighbors g y ↔ y ∈ getNeighbors g x) →
        ∀ x y, x ∈ getNeighbors (specs.foldl (fun g spec => process_spec spec g) g) y
          ↔ y ∈ getNeighbors (specs.foldl (fun g spec => process_spec spec g) g) x := by
      intro specs
      induction specs with
      | nil => intro g hg; exact hg
      | cons spec specs ih =>
        intro g hg
        rw [List.foldl_cons]
        exact ih _ (sym_process_spec spec g hg)
    intro x y
    unfold parse_neighbors
    rw [getNeighbors_map_sortedSet, getNeighbors_map_sortedSet]
    apply hbase
    intro x y
    simp [getNeighbors, lookupd]
  · intro k vs hmem
    unfold parse_neighbors at hmem
    simp only [List.mem_map] at hmem
    obtain ⟨p, _, hp⟩ := hmem
    have hvs : vs = sortedSet p.2 := by
      cases p
      simp only [Prod.mk.injEq] at hp
      exact hp.2.symm
    rw [hvs]
    exact ⟨sortedSet_nodup p.2, sortedSet_sorted p.2⟩
  · intro spec g hc
    unfold process_spec
    rw [hc]
    simp

/-- Witness for C7: the docstring example with a malformed extra entry: the
entry without a colon contributes nothing, and the parse of "X: Y Z; Y: Z"
is symmetric with sorted duplicate-free adjacency lists. -/
theorem C7_parse_neighbors_witness :
    (['Y'] ∈ getNeighbors (parse_neighbors ("X: Y Z; Y: Z".toList)) ['X']
      ↔ ['X'] ∈ getNeighbors (parse_neighbors ("X: Y Z; Y: Z".toList)) ['Y'])
    ∧ process_spec ("no colon here".toList) [] = [] :=
  ⟨(C7_parse_neighbors ("X: Y Z; Y: Z".toList)).1 ['Y'] ['X'],
    (C7_parse_neighbors []).2.2 ("no colon here".toList) [] (by decide)⟩

/-!  Determinism of the search with deterministic strategies. -/

/-- C9: with the deterministic first-unassigned-variable selector, the
deterministic LCV value ordering and deterministic forward checking, two
invocations of backtracking_search on equal inputs (same variables, domains,
neighbors and constraints, same trace and step cap) produce identical
results: the same solution and the same trace event sequence. -/
theorem C9_deterministic (c1 c2 : CSP V A) (trace : Option (List (Event V A)))
    (maxSteps : Option Nat) (fuel : Nat)
    (hv : c1.variables = c2.variables)
    (hd : ∀ v, c1.domains v = c2.domains v)
    (hn : ∀ v, c1.neighbors v = c2.neighbors v)
    (hc : ∀ v a n b, c1.constraints v a n b = c2.constraints v a n b) :
    backtracking_search c1 first_unassigned_variable lcv forward_checking
        trace maxSteps fuel
    = backtracking_search c2 first_unassigned_variable lcv forward_checking
        trace maxSteps fuel := by
  have he : c1 = c2 := by
    cases c1
    cases c2
    simp only [CSP.mk.injEq]
    exact ⟨hv, funext hd, funext hn,
      funext fun v => funext fun a => funext fun n => funext fun b => hc v a n b⟩
  rw [he]

/-- Witness for C9: the two runs on the (syntactically equal) 4-cycle inputs
coincide. -/
theorem C9_deterministic_witness :
    backtracking_search squareCSP first_unassigned_variable lcv forward_checking
        (some []) (some 100) 6
    = backtracking_search squareCSP first_unassigned_variable lcv forward_checking
        (some []) (some 100) 6 :=
  C9_deterministic squareCSP squareCSP (some []) (some 100) 6 rfl
    (fun _ => rfl) (fun _ => rfl) (fun _ _ _ _ => rfl)

/-!  The log function and the trace-free mode. -/

theorem log_none {st : BT V A} (h : st.trace = none) (m : Option Nat)
    (ev : EvKind) (a : List (V × A)) (ov : Option V) (oa : Option A) :
    log m st ev a ov oa = .ok st := by
  simp [log, h]

theorem log_overflow {st : BT V A} {t : List (Event V A)} {m : Nat}
    (h : st.trace = some t) (hm : m < st.step + 1) (ev : EvKind)
    (a : List (V × A)) (ov : Option V) (oa : Option A) :
    log (some m) st ev a ov oa = .error .traceOverflow := by
  simp [log, h, hm]

theorem log_ok_state {m : Option Nat} {st st' : BT V A} {ev : EvKind}
    {a : List (V × A)} {ov : Option V} {oa : Option A}
    (h : log m st ev a ov oa = .ok st') :
    st'.curr = st.curr ∧ st'.nassigns = st.nassigns := by
  unfold log at h
  cases ht : st.trace with
  | none =>
    rw [ht] at h
    cases h
    exact ⟨rfl, rfl⟩
  | some t =>
    rw [ht] at h
    dsimp only at h
    split at h
    · cases h
    · cases h
      exact ⟨rfl, rfl⟩

theorem log_TraceOK {m : Option Nat} {st st' : BT V A} {ev : EvKind}
    {a : List (V × A)} {ov : Option V} {oa : Option A}
    (h : log m st ev a ov oa = .ok st') (ht : TraceOK st) : TraceOK st' := by
  obtain ⟨t, ht1, ht2, ht3⟩ := ht
  unfold log at h
  rw [ht1] at h
  dsimp only at h
  split at h
  · cases h
  · cases h
    refine ⟨t ++ [⟨st.step + 1, a.length, ev, ov, oa, a⟩], rfl, by simp [ht2], ?_⟩
    intro i hi
    simp only [List.length_append, List.length_singleton] at hi
    by_cases hit : i < t.length
    · rw [List.get_eq_getElem, List.getElem_append_left hit]
      exact ht3 i hit
    · have hieq : i = t.length := by omega
      subst hieq
      rw [List.get_eq_getElem, List.getElem_append_right (Nat.le_refl _)]
      simp [ht2]

theorem bumpAssigns_trace (st : BT V A) : (bumpAssigns st).trace = st.trace := rfl

theorem setCurr_trace (st : BT V A) (d : V → List A) :
    (setCurr st d).trace = st.trace := rfl

theorem restoreSt_trace (st : BT V A) (rems : List (V × A)) :
    (restoreSt st rems).trace = st.trace := rfl

theorem tryVals_trace_none (csp : CSP V A) (inf : InfFn V A) (m1 m2 : Option Nat)
    (bt1 bt2 : List (V × A) → BT V A → Except Err (Option (List (V × A)) × BT V A))
    (hbt : ∀ a st, st.trace = none →
      bt1 a st = bt2 a st
      ∧ (∀ r st', bt1 a st = .ok (r, st') → st'.trace = none)
      ∧ bt1 a st ≠ .error .traceOverflow)
    (var : V) :
    ∀ (vals : List A) (a : List (V × A)) (st : BT V A), st.trace = none →
      tryVals csp inf m1 bt1 var a vals st = tryVals csp inf m2 bt2 var a vals st
      ∧ (∀ r st', tryVals csp inf m1 bt1 var a vals st = .ok (r, st') →
          st'.trace = none)
      ∧ tryVals csp inf m1 bt1 var a vals st ≠ .error .traceOverflow := by
  intro vals
  induction vals with
  | nil =>
    intro a st h
    refine ⟨rfl, ?_, ?_⟩
    · intro r st' hr
      simp only [tryVals] at hr
      cases hr
      exact h
    · simp [tryVals]
  | cons value rest ih =>
    intro a st h
    simp only [tryVals, log_none h]
    by_cases hc : nconflicts csp var value a ≠ 0
    · rw [if_pos hc, if_pos hc]
      exact ih a st h
    · rw [if_neg hc, if_neg hc]
      have h2 : (bumpAssigns st).trace = none := by rw [bumpAssigns_trace]; exact h
      simp only [log_none h2]
      set a' := assign a var value with ha'
      set r := inf csp var value a'
        (suppose csp (bumpAssigns st).curr var value).1
        (suppose csp (bumpAssigns st).curr var value).2 with hrdef
      have h3 : (setCurr (bumpAssigns st) r.2.1).trace = none := by
        rw [setCurr_trace]; exact h2
      by_cases hr1 : r.1 = true
      · rw [if_pos hr1, if_pos hr1]
        obtain ⟨heq, hok, hne⟩ := hbt a' (setCurr (bumpAssigns st) r.2.1) h3
        cases hb1 : bt1 a' (setCurr (bumpAssigns st) r.2.1) with
        | error e =>
          have hb2 : bt2 a' (setCurr (bumpAssigns st) r.2.1) = .error e := by
            rw [← heq]; exact hb1
          rw [hb2]
          refine ⟨rfl, ?_, ?_⟩
          · intro r' st' hr'
            cases hr'
          · intro hcontra
            cases hcontra
            exact hne hb1
        | ok p =>
          obtain ⟨rres, st'⟩ := p
          have hb2 : bt2 a' (setCurr (bumpAssigns st) r.2.1) = .ok (rres, st') := by
            rw [← heq]; exact hb1
          rw [hb2]
          have hst' : st'.trace = none := hok rres st' hb1
          cases rres with
          | some result =>
            refine ⟨rfl, ?_, ?_⟩
            · intro r' st'' hr'
              cases hr'
              exact hst'
            · intro hcontra
              cases hcontra
          | none =>
            have h4 : (restoreSt st' r.2.2).trace = none := by
              rw [restoreSt_trace]; exact hst'
            simp only [log_none h4]
            exact ih (unassign a' var) _ h4
      · rw [if_neg hr1, if_neg hr1]
        simp only [log_none h3]
        have h5 : (restoreSt (setCurr (bumpAssigns st) r.2.1) r.2.2).trace = none := by
          rw [restoreSt_trace]; exact h3
        simp only [log_none h5]
        exact ih (unassign a' var) _ h5

theorem backtrack_trace_none (csp : CSP V A) (sel : SelFn V A) (ord : OrdFn V A)
    (inf : InfFn V A) (m1 m2 : Option Nat) :
    ∀ (fuel : Nat) (a : List (V × A)) (st : BT V A), st.trace = none →
      backtrack csp sel ord inf m1 fuel a st = backtrack csp sel ord inf m2 fuel a st
      ∧ (∀ r st', backtrack csp sel ord inf m1 fuel a st = .ok (r, st') →
          st'.trace = none)
      ∧ backtrack csp sel ord inf m1 fuel a st ≠ .error .traceOverflow := by
  intro fuel
  induction fuel with
  | zero =>
    intro a st h
    refine ⟨rfl, ?_, ?_⟩
    · intro r st' hr
      simp only [backtrack] at hr
      cases hr
    · simp [backtrack]
  | succ fuel ih =>
    intro a st h
    simp only [backtrack]
    by_cases hlen : a.length = csp.variables.length
    · rw [if_pos hlen, if_pos hlen]
      simp only [log_none h]
      refine ⟨trivial, ?_, ?_⟩
      · intro r st' hr
        cases hr
        exact h
      · intro hcontra
        cases hcontra
    · rw [if_neg hlen, if_neg hlen]
      cases hsel : sel a csp st.curr with
      | none =>
        refine ⟨rfl, ?_, ?_⟩
        · intro r st' hr
          cases hr
        · intro hcontra
          cases hcontra
      | some var =>
        exact tryVals_trace_none csp inf m1 m2 _ _ (fun a st hst => ih a st hst)
          var (ord var a csp st.curr) a st h

/-- C10: when `backtracking_search` is called with no trace, the `log`
function returns immediately without advancing the step counter or changing
the state, so the trace-overflow error can never be raised and the
`max_steps` parameter imposes no bound on the search, whatever its value. -/
theorem C10_no_trace_no_overflow :
    (∀ (st : BT V A) (m : Option Nat) (ev : EvKind) (a : List (V × A))
        (ov : Option V) (oa : Option A), st.trace = none →
        log m st ev a ov oa = .ok st)
    ∧ (∀ (csp : CSP V A) (sel : SelFn V A) (ord : OrdFn V A) (inf : InfFn V A)
        (m1 m2 : Option Nat) (fuel : Nat),
        backtracking_search csp sel ord inf none m1 fuel
          = backtracking_search csp sel ord inf none m2 fuel)
    ∧ (∀ (csp : CSP V A) (sel : SelFn V A) (ord : OrdFn V A) (inf : InfFn V A)
        (m : Option Nat) (fuel : Nat),
        backtracking_search csp sel ord inf none m fuel ≠ .error .traceOverflow) := by
  refine ⟨?_, ?_, ?_⟩
  · intro st m ev a ov oa h
    exact log_none h m ev a ov oa
  · intro csp sel ord inf m1 m2 fuel
    obtain ⟨heq, _, _⟩ :=
      backtrack_trace_none csp sel ord inf m1 m2 fuel [] ⟨none, 0, 0, none⟩ rfl
    simp only [backtracking_search, heq]
  · intro csp sel ord inf m fuel
    obtain ⟨_, hok, hne⟩ :=
      backtrack_trace_none csp sel ord inf m m fuel [] ⟨none, 0, 0, none⟩ rfl
    simp only [backtracking_search]
    cases hb : backtrack csp sel ord inf m fuel [] ⟨none, 0, 0, none⟩ with
    | error e =>
      intro hcontra
      cases hcontra
      exact hne hb
    | ok p =>
      obtain ⟨r, st'⟩ := p
      cases r with
      | some sol =>
        by_cases hg : is_goal csp sol
        · simp only [hg, if_true]
          intro hcontra
          cases hcontra
        · simp only [hg, if_false]
          intro hcontra
          cases hcontra
      | none =>
        intro hcontra
        cases hcontra

/-- Witness for C10 on concrete inputs: a trace-free log call is the
identity, and a trace-free solve is independent of the step cap and never
overflows. -/
theorem C10_no_trace_no_overflow_witness :
    (log (some 7) (⟨none, 0, 0, none⟩ : BT Nat Nat) .TRY [] none none
      = .ok ⟨none, 0, 0, none⟩)
    ∧ backtracking_search exCSP first_unassigned_variable lcv forward_checking
        none (some 0) 3
      = backtracking_search exCSP first_unassigned_variable lcv forward_checking
        none (some 5) 3
    ∧ backtracking_search exCSP first_unassigned_variable lcv forward_checking
        none (some 0) 3 ≠ .error .traceOverflow :=
  ⟨C10_no_trace_no_overflow.1 ⟨none, 0, 0, none⟩ (some 7) .TRY [] none none rfl,
    C10_no_trace_no_overflow.2.1 exCSP first_unassigned_variable lcv
      forward_checking (some 0) (some 5) 3,
    C10_no_trace_no_overflow.2.2 exCSP first_unassigned_variable lcv
      forward_checking (some 0) 3⟩

theorem bumpAssigns_TraceOK {st : BT V A} (h : TraceOK st) :
    TraceOK (bumpAssigns st) := h

theorem setCurr_TraceOK {st : BT V A} (d : V → List A) (h : TraceOK st) :
    TraceOK (setCurr st d) := h

theorem restoreSt_TraceOK {st : BT V A} (rems : List (V × A)) (h : TraceOK st) :
    TraceOK (restoreSt st rems) := h

theorem tryVals_TraceOK (csp : CSP V A) (inf : InfFn V A) (m : Option Nat)
    (bt : List (V × A) → BT V A → Except Err (Option (List (V × A)) × BT V A))
    (hbt : ∀ a st r st', TraceOK st → bt a st = .ok (r, st') → TraceOK st')
    (var : V) :
    ∀ (vals : List A) (a : List (V × A)) (st : BT V A) r st', TraceOK st →
      tryVals csp inf m bt var a vals st = .ok (r, st') → TraceOK st' := by
  intro vals
  induction vals with
  | nil =>
    intro a st r st' ht hr
    simp only [tryVals] at hr
    cases hr
    exact ht
  | cons value rest ih =>
    intro a st r st' ht hr
    simp only [tryVals] at hr
    cases hl1 : log m st .TRY a (some var) (some value) with
    | error e => rw [hl1] at hr; cases hr
    | ok st1 =>
      rw [hl1] at hr
      dsimp only at hr
      have ht1 : TraceOK st1 := log_TraceOK hl1 ht
      by_cases hc : nconflicts csp var value a ≠ 0
      · rw [if_pos hc] at hr
        cases hl2 : log m st1 .CONFLICT a (some var) (some value) with
        | error e => rw [hl2] at hr; cases hr
        | ok st2 =>
          rw [hl2] at hr
          dsimp only at hr
          exact ih a st2 r st' (log_TraceOK hl2 ht1) hr
      · rw [if_neg hc] at hr
        cases hl3 : log m (bumpAssigns st1) .ASSIGN (assign a var value)
            (some var) (some value) with
        | error e => rw [hl3] at hr; cases hr
        | ok st2 =>
          rw [hl3] at hr
          dsimp only at hr
          have ht2 : TraceOK st2 := log_TraceOK hl3 (bumpAssigns_TraceOK ht1)
          set rr := inf csp var value (assign a var value)
            (suppose csp st2.curr var value).1
            (suppose csp st2.curr var value).2 with hrr
          by_cases hr1 : rr.1 = true
          · rw [if_pos hr1] at hr
            cases hb : bt (assign a var value) (setCurr st2 rr.2.1) with
            | error e => rw [hb] at hr; cases hr
            | ok p =>
              obtain ⟨rres, stx⟩ := p
              rw [hb] at hr
              have htx : TraceOK stx := hbt _ _ _ _ (setCurr_TraceOK _ ht2) hb
              cases rres with
              | some result =>
                dsimp only at hr
                cases hr
                exact htx
              | none =>
                dsimp only at hr
                cases hl4 : log m (restoreSt stx rr.2.2) .BACKTRACK
                    (unassign (assign a var value) var) (some var) (some value) with
                | error e => rw [hl4] at hr; cases hr
                | ok st4 =>
                  rw [hl4] at hr
                  dsimp only at hr
                  exact ih _ st4 r st'
                    (log_TraceOK hl4 (restoreSt_TraceOK _ htx)) hr
          · rw [if_neg hr1] at hr
            cases hl5 : log m (setCurr st2 rr.2.1) .INFER_FAIL
                (assign a var value) (some var) (some value) with
            | error e => rw [hl5] at hr; cases hr
            | ok st5 =>
              rw [hl5] at hr
              dsimp only at hr
              cases hl6 : log m (restoreSt st5 rr.2.2) .BACKTRACK
                  (unassign (assign a var value) var) (some var) (some value) with
              | error e => rw [hl6] at hr; cases hr
              | ok st6 =>
                rw [hl6] at hr
                dsimp only at hr
                exact ih _ st6 r st'
                  (log_TraceOK hl6 (restoreSt_TraceOK _
                    (log_TraceOK hl5 (setCurr_TraceOK _ ht2)))) hr

theorem backtrack_TraceOK (csp : CSP V A) (sel : SelFn V A) (ord : OrdFn V A)
    (inf : InfFn V A) (m : Option Nat) :
    ∀ (fuel : Nat) (a : List (V × A)) (st : BT V A) r st', TraceOK st →
      backtrack csp sel ord inf m fuel a st = .ok (r, st') → TraceOK st' := by
  intro fuel
  induction fuel with
  | zero =>
    intro a st r st' ht hr
    simp only [backtrack] at hr
    cases hr
  | succ fuel ih =>
    intro a st r st' ht hr
    simp only [backtrack] at hr
    by_cases hlen : a.length = csp.variables.length
    · rw [if_pos hlen] at hr
      cases hl : log m st .GOAL a none none with
      | error e => rw [hl] at hr; cases hr
      | ok stg =>
        rw [hl] at hr
        dsimp only at hr
        cases hr
        exact log_TraceOK hl ht
    · rw [if_neg hlen] at hr
      cases hsel : sel a csp st.curr with
      | none => rw [hsel] at hr; cases hr
      | some var =>
        rw [hsel] at hr
        dsimp only at hr
        exact tryVals_TraceOK csp inf m _ (fun a st r st' => ih a st r st')
          var (ord var a csp st.curr) a st r st' ht hr

/-- C6: the trace step counter increases strictly across all logged events of
a solve; as soon as the step count would exceed the configured maximum, the
search aborts with the trace-overflow error (a fatal outcome distinct from
the no-solution result); and the solve entry point defaults its maximum
trace-event count to the large finite bound 50000. -/
theorem C6_trace_monotone_capped :
    (∀ (pick : List Str → Option Str) (nd : List (Str × List Str))
        (letters : Str) (fuel : Nat),
        solve_map_coloring pick nd letters fuel
          = solve_map_coloring pick nd letters fuel 50000 none)
    ∧ (∀ (st : BT V A) (t : List (Event V A)) (m : Nat) (ev : EvKind)
        (a : List (V × A)) (ov : Option V) (oa : Option A),
        st.trace = some t → m < st.step + 1 →
        log (some m) st ev a ov oa = .error .traceOverflow)
    ∧ (∀ (pick : List Str → Option Str) (nd : List (Str × List Str))
        (letters : Str) (fuel m : Nat) (sol : Option (List (Str × Char)))
        (t : List (Event Str Char)),
        solve_map_coloring pick nd letters fuel m none = .ok (sol, t) →
        ∀ (i j : Nat) (dflt : Event Str Char), i < j → j < t.length →
          (t.getD i dflt).step < (t.getD j dflt).step) := by
  refine ⟨fun _ _ _ _ => rfl, ?_, ?_⟩
  · intro st t m ev a ov oa ht hm
    exact log_overflow ht hm ev a ov oa
  · intro pick nd letters fuel m sol t h i j dflt hij hj
    simp only [solve_map_coloring] at h
    cases hbs : backtracking_search (MapColoringCSP letters nd) (mrv pick) lcv
        forward_checking (some []) (some m) fuel with
    | error e => rw [hbs] at h; cases h
    | ok p =>
      obtain ⟨solution, tr⟩ := p
      rw [hbs] at h
      dsimp only at h
      simp only [backtracking_search] at hbs
      have htOK : TraceOK (⟨none, 0, 0, some []⟩ : BT Str Char) :=
        ⟨[], rfl, rfl, fun i h => absurd h (Nat.not_lt_zero i)⟩
      cases hbk : backtrack (MapColoringCSP letters nd) (mrv pick) lcv
          forward_checking (some m) fuel [] ⟨none, 0, 0, some []⟩ with
      | error e => rw [hbk] at hbs; cases hbs
      | ok q =>
        obtain ⟨r, st'⟩ := q
        rw [hbk] at hbs
        have hst' : TraceOK st' :=
          backtrack_TraceOK _ _ _ _ _ fuel [] _ r st' htOK hbk
        obtain ⟨te, hte, hstep, hsteps⟩ := hst'
        have htr : tr = st'.trace := by
          cases r with
          | some solx =>
            dsimp only at hbs
            by_cases hg : is_goal (MapColoringCSP letters nd) solx
            · rw [if_pos hg] at hbs
              cases hbs
              rfl
            · rw [if_neg hg] at hbs
              cases hbs
          | none =>
            dsimp only at hbs
            cases hbs
            rfl
        have hteq : t = te := by
          cases h
          rw [htr, hte]
          rfl
        subst hteq
        have hi : i < t.length := Nat.lt_trans hij hj
        rw [List.getD_eq_getElem t dflt hi, List.getD_eq_getElem t dflt hj]
        have h1 := hsteps i hi
        have h2 := hsteps j hj
        rw [List.get_eq_getElem] at h1 h2
        rw [h1, h2]
        omega

/-- Witness for C6 on a two-region map: the default cap equation, a concrete
overflowing log call, and strictly increasing steps in the concrete trace. -/
theorem C6_trace_monotone_capped_witness :
    (solve_map_coloring pickHead exMap ['R', 'G'] 5
      = solve_map_coloring pickHead exMap ['R', 'G'] 5 50000 none)
    ∧ (log (some 3) (⟨none, 0, 5, some []⟩ : BT Nat Nat) .TRY [] none none
        = .error .traceOverflow)
    ∧ (([⟨1, 0, .TRY, some ['A'], some 'R', []⟩,
         ⟨2, 1, .ASSIGN, some ['A'], some 'R', [(['A'], 'R')]⟩,
         ⟨3, 1, .TRY, some ['B'], some 'G', [(['A'], 'R')]⟩,
         ⟨4, 2, .ASSIGN, some ['B'], some 'G', [(['A'], 'R'), (['B'], 'G')]⟩,
         ⟨5, 2, .GOAL, none, none, [(['A'], 'R'), (['B'], 'G')]⟩] :
            List (Event Str Char)).getD 0 ⟨0, 0, .TRY, none, none, []⟩).step
      < (([⟨1, 0, .TRY, some ['A'], some 'R', []⟩,
         ⟨2, 1, .ASSIGN, some ['A'], some 'R', [(['A'], 'R')]⟩,
         ⟨3, 1, .TRY, some ['B'], some 'G', [(['A'], 'R')]⟩,
         ⟨4, 2, .ASSIGN, some ['B'], some 'G', [(['A'], 'R'), (['B'], 'G')]⟩,
         ⟨5, 2, .GOAL, none, none, [(['A'], 'R'), (['B'], 'G')]⟩] :
            List (Event Str Char)).getD 1 ⟨0, 0, .TRY, none, none, []⟩).step :=
  ⟨(@C6_trace_monotone_capped Nat Nat _ _).1 pickHead exMap ['R', 'G'] 5,
    (@C6_trace_monotone_capped Nat Nat _ _).2.1 ⟨none, 0, 5, some []⟩ [] 3 .TRY [] none none
      rfl (by decide),
    (@C6_trace_monotone_capped Nat Nat _ _).2.2 pickHead exMap ['R', 'G'] 5 50000
      (some [(['A'], 'R'), (['B'], 'G')])
      [⟨1, 0, .TRY, some ['A'], some 'R', []⟩,
       ⟨2, 1, .ASSIGN, some ['A'], some 'R', [(['A'], 'R')]⟩,
       ⟨3, 1, .TRY, some ['B'], some 'G', [(['A'], 'R')]⟩,
       ⟨4, 2, .ASSIGN, some ['B'], some 'G', [(['A'], 'R'), (['B'], 'G')]⟩,
       ⟨5, 2, .GOAL, none, none, [(['A'], 'R'), (['B'], 'G')]⟩]
      (by rfl) 0 1 ⟨0, 0, .TRY, none, none, []⟩ (by decide) (by decide)⟩

/-!  Well-formedness of the assignments produced by the search. -/

theorem KeysOK_append {csp : CSP V A} {a : List (V × A)} {var : V} (value : A)
    (h : KeysOK csp a) (hv : var ∈ csp.variables)
    (hfresh : lookupd a var = none) : KeysOK csp (a ++ [(var, value)]) := by
  obtain ⟨hnd, hmem⟩ := h
  constructor
  · rw [List.map_append]
    rw [List.nodup_append]
    refine ⟨hnd, List.nodup_singleton var, ?_⟩
    intro x hx hx'
    simp only [List.map_cons, List.map_nil, List.mem_singleton] at hx'
    obtain ⟨p, hp, hpe⟩ := List.mem_map.mp hx
    exact absurd (hpe.trans hx') ((lookupd_eq_none_iff a var).mp hfresh p hp)
  · intro p hp
    rcases List.mem_append.mp hp with h | h
    · exact hmem p h
    · simp only [List.mem_singleton] at h
      subst h
      exact hv

theorem unassign_assign_fresh {a : List (V × A)} {var : V} (value : A)
    (hfresh : lookupd a var = none) :
    unassign (assign a var value) var = a := by
  rw [assign_of_fresh value hfresh]
  exact unassign_append_fresh value hfresh

theorem tryVals_keys (csp : CSP V A) (inf : InfFn V A) (m : Option Nat)
    (bt : List (V × A) → BT V A → Except Err (Option (List (V × A)) × BT V A))
    (hbt : ∀ a st sol st', KeysOK csp a → bt a st = .ok (some sol, st') →
      KeysOK csp sol)
    (var : V) (hvar : var ∈ csp.variables) :
    ∀ (vals : List A) (a : List (V × A)) (st : BT V A) sol st',
      KeysOK csp a → lookupd a var = none →
      tryVals csp inf m bt var a vals st = .ok (some sol, st') →
      KeysOK csp sol := by
  intro vals
  induction vals with
  | nil =>
    intro a st sol st' hk hfresh hr
    simp only [tryVals] at hr
    cases hr
  | cons value rest ih =>
    intro a st sol st' hk hfresh hr
    simp only [tryVals] at hr
    cases hl1 : log m st .TRY a (some var) (some value) with
    | error e => rw [hl1] at hr; cases hr
    | ok st1 =>
      rw [hl1] at hr
      dsimp only at hr
      by_cases hc : nconflicts csp var value a ≠ 0
      · rw [if_pos hc] at hr
        cases hl2 : log m st1 .CONFLICT a (some var) (some value) with
        | error e => rw [hl2] at hr; cases hr
        | ok st2 =>
          rw [hl2] at hr
          dsimp only at hr
          exact ih a st2 sol st' hk hfresh hr
      · rw [if_neg hc] at hr
        cases hl3 : log m (bumpAssigns st1) .ASSIGN (assign a var value)
            (some var) (some value) with
        | error e => rw [hl3] at hr; cases hr
        | ok st2 =>
          rw [hl3] at hr
          dsimp only at hr
          have hk' : KeysOK csp (assign a var value) := by
            rw [assign_of_fresh value hfresh]
            exact KeysOK_append value hk hvar hfresh
          set rr := inf csp var value (assign a var value)
            (suppose csp st2.curr var value).1
            (suppose csp st2.curr var value).2 with hrr
          by_cases hr1 : rr.1 = true
          · rw [if_pos hr1] at hr
            cases hb : bt (assign a var value) (setCurr st2 rr.2.1) with
            | error e => rw [hb] at hr; cases hr
            | ok p =>
              obtain ⟨rres, stx⟩ := p
              rw [hb] at hr
              cases rres with
              | some result =>
                dsimp only at hr
                cases hr
                exact hbt _ _ _ _ hk' hb
              | none =>
                dsimp only at hr
                rw [unassign_assign_fresh value hfresh] at hr
                cases hl4 : log m (restoreSt stx rr.2.2) .BACKTRACK a
                    (some var) (some value) with
                | error e => rw [hl4] at hr; cases hr
                | ok st4 =>
                  rw [hl4] at hr
                  dsimp only at hr
                  exact ih a st4 sol st' hk hfresh hr
          · rw [if_neg hr1] at hr
            cases hl5 : log m (setCurr st2 rr.2.1) .INFER_FAIL
                (assign a var value) (some var) (some value) with
            | error e => rw [hl5] at hr; cases hr
            | ok st5 =>
              rw [hl5] at hr
              dsimp only at hr
              rw [unassign_assign_fresh value hfresh] at hr
              cases hl6 : log m (restoreSt st5 rr.2.2) .BACKTRACK a
                  (some var) (some value) with
              | error e => rw [hl6] at hr; cases hr
              | ok st6 =>
                rw [hl6] at hr
                dsimp only at hr
                exact ih a st6 sol st' hk hfresh hr

theorem backtrack_keys (csp : CSP V A) (sel : SelFn V A) (ord : OrdFn V A)
    (inf : InfFn V A) (m : Option Nat)
    (hsel : ∀ (a : List (V × A)) curr v, sel a csp curr = some v →
      (lookupd a v).isNone ∧ v ∈ csp.variables) :
    ∀ (fuel : Nat) (a : List (V × A)) (st : BT V A) sol st', KeysOK csp a →
      backtrack csp sel ord inf m fuel a st = .ok (some sol, st') →
      KeysOK csp sol := by
  intro fuel
  induction fuel with
  | zero =>
    intro a st sol st' hk hr
    simp only [backtrack] at hr
    cases hr
  | succ fuel ih =>
    intro a st sol st' hk hr
    simp only [backtrack] at hr
    by_cases hlen : a.length = csp.variables.length
    · rw [if_pos hlen] at hr
      cases hl : log m st .GOAL a none none with
      | error e => rw [hl] at hr; cases hr
      | ok stg =>
        rw [hl] at hr
        dsimp only at hr
        cases hr
        exact hk
    · rw [if_neg hlen] at hr
      cases hse : sel a csp st.curr with
      | none => rw [hse] at hr; cases hr
      | some var =>
        rw [hse] at hr
        dsimp only at hr
        obtain ⟨hfresh, hvar⟩ := hsel a st.curr var hse
        exact tryVals_keys csp inf m _ (fun a st sol st' => ih a st sol st')
          var hvar (ord var a csp st.curr) a st sol st' hk
          (Option.isNone_iff_eq_none.mp hfresh) hr

theorem is_goal_spec {csp : CSP V A} {sol : List (V × A)}
    (hg : is_goal csp sol = true) :
    sol.length = csp.variables.length
    ∧ ∀ v ∈ csp.variables, ∃ b, lookupd sol v = some b
        ∧ nconflicts csp v b sol = 0 := by
  unfold is_goal at hg
  by_cases hlen : sol.length ≠ csp.variables.length
  · rw [if_pos hlen] at hg
    cases hg
  · rw [if_neg hlen] at hg
    refine ⟨Classical.not_not.mp hlen, ?_⟩
    intro v hv
    have hall := (List.all_eq_true.mp hg) v hv
    cases hlk : lookupd sol v with
    | none => rw [hlk] at hall; cases hall
    | some b =>
      rw [hlk] at hall
      simp only [decide_eq_true_eq] at hall
      exact ⟨b, rfl, hall⟩

theorem nconflicts_zero {csp : CSP V A} {v : V} {bv : A} {sol : List (V × A)}
    (h : nconflicts csp v bv sol = 0) :
    ∀ n ∈ csp.neighbors v, ∀ bn, lookupd sol n = some bn →
      csp.constraints v bv n bn = true := by
  unfold nconflicts at h
  rw [List.countP_eq_zero] at h
  intro n hn bn hbn
  have hh := h n hn
  rw [hbn] at hh
  simpa using hh

/-- C1: whenever `backtracking_search` returns a non-`None` result, the
result assigns exactly one value to every variable of the CSP (every
variable is assigned, keys are distinct, and there are as many entries as
variables) and every assigned pair of neighboring variables satisfies the
constraint; the returned assignment passes the top-level `is_goal`
validation, and any candidate that fails this validation makes the search
abort with the `AssertionError` outcome instead of being returned. -/
theorem C1_solution_validated (csp : CSP V A) (sel : SelFn V A)
    (ord : OrdFn V A) (inf : InfFn V A) (trace : Option (List (Event V A)))
    (maxSteps : Option Nat) (fuel : Nat)
    (hsel : ∀ (a : List (V × A)) curr v, sel a csp curr = some v →
      (lookupd a v).isNone ∧ v ∈ csp.variables) :
    (∀ sol tr,
      backtracking_search csp sel ord inf trace maxSteps fuel = .ok (some sol, tr) →
      ((∀ v ∈ csp.variables, ∃ b, lookupd sol v = some b)
        ∧ (sol.map (·.1)).Nodup ∧ sol.length = csp.variables.length)
      ∧ (∀ v bv n bn, v ∈ csp.variables → n ∈ csp.neighbors v →
          lookupd sol v = some bv → lookupd sol n = some bn →
          csp.constraints v bv n bn = true)
      ∧ is_goal csp sol = true)
    ∧ (∀ sol st',
        backtrack csp sel ord inf maxSteps fuel [] ⟨none, 0, 0, trace⟩
          = .ok (some sol, st') →
        is_goal csp sol = false →
        backtracking_search csp sel ord inf trace maxSteps fuel
          = .error .invalidSolution) := by
  constructor
  · intro sol tr h
    simp only [backtracking_search] at h
    cases hbk : backtrack csp sel ord inf maxSteps fuel [] ⟨none, 0, 0, trace⟩ with
    | error e => rw [hbk] at h; cases h
    | ok p =>
      obtain ⟨r, st'⟩ := p
      rw [hbk] at h
      have hkeys : ∀ solx, r = some solx → KeysOK csp solx := by
        intro solx hre
        subst hre
        exact backtrack_keys csp sel ord inf maxSteps hsel fuel [] _ solx st'
          ⟨List.nodup_nil, fun p hp => absurd hp (List.not_mem_nil p)⟩ hbk
      cases r with
      | none => dsimp only at h; cases h
      | some solx =>
        dsimp only at h
        by_cases hg : is_goal csp solx
        · rw [if_pos hg] at h
          cases h
          have hk := hkeys sol rfl
          obtain ⟨hlen2, hcov⟩ := is_goal_spec hg
          refine ⟨⟨fun v hv => (hcov v hv).imp (fun b hb => hb.1), hk.1, hlen2⟩,
            ?_, hg⟩
          intro v bv n bn hv hn hbv hbn
          obtain ⟨b, hb1, hb2⟩ := hcov v hv
          rw [hbv] at hb1
          cases hb1
          exact nconflicts_zero hb2 n hn bn hbn
        · rw [if_neg hg] at h
          cases h
  · intro sol st' hbk hng
    simp only [backtracking_search, hbk]
    rw [if_neg (by rw [hng]; exact Bool.false_ne_true)]

theorem first_unassigned_variable_spec (csp : CSP V A) (a : List (V × A))
    (curr : Option (V → List A)) (v : V)
    (h : first_unassigned_variable a csp curr = some v) :
    (lookupd a v).isNone ∧ v ∈ csp.variables := by
  unfold first_unassigned_variable first at h
  cases hf : csp.variables.filter (fun v => (lookupd a v).isNone) with
  | nil => rw [hf] at h; cases h
  | cons x t =>
    rw [hf] at h
    cases h
    have hx : v ∈ csp.variables.filter (fun v => (lookupd a v).isNone) := by
      rw [hf]; exact List.mem_cons_self v t
    have := List.mem_filter.mp hx
    exact ⟨this.2, this.1⟩

/-- Witness for C1: the solution computed on the 2-colorable 4-cycle covers
every variable and passes the goal validation. -/
theorem C1_solution_validated_witness :
    (∀ v ∈ squareCSP.variables,
      ∃ b, lookupd [((0 : Fin 4), (0 : Fin 2)), (1, 1), (2, 0), (3, 1)] v = some b)
    ∧ is_goal squareCSP [(0, 0), (1, 1), (2, 0), (3, 1)] = true :=
  let h := (C1_solution_validated squareCSP first_unassigned_variable lcv
    forward_checking none none 6
    (fun a curr v hs => first_unassigned_variable_spec squareCSP a curr v hs)).1
    [(0, 0), (1, 1), (2, 0), (3, 1)] none (by rfl)
  ⟨h.1.1, h.2.2⟩

/-!  Completeness infrastructure: forward checking only shrinks working
domains and logs values drawn from them; extending a conflict-free
assignment with a conflict-free value keeps it conflict-free; and a partial
well-formed assignment leaves some variable unassigned. -/

theorem forward_checking_sub (csp : CSP V A) (var : V) (value : A)
    (assignment : List (V × A)) :
    ∀ (Bs : List V) (d : V → List A) (rems : List (V × A)),
      (∀ v b, b ∈ (forward_checking_spec csp var value assignment Bs d rems).2.1 v →
        b ∈ d v)
      ∧ (∃ ext,
          (forward_checking_spec csp var value assignment Bs d rems).2.2
            = rems ++ ext
          ∧ ∀ q ∈ ext, q.2 ∈ d q.1) := by
  intro Bs
  induction Bs with
  | nil =>
    intro d rems
    exact ⟨fun v b h => h, [], by simp [forward_checking_spec], fun q hq => absurd hq (List.not_mem_nil q)⟩
  | cons B Bs ih =>
    intro d rems
    by_cases hB : (lookupd assignment B).isSome
    · simp only [forward_checking_spec, if_pos hB]
      exact ih d rems
    · simp only [forward_checking_spec, if_neg hB]
      have hsub : ∀ v b,
          b ∈ updateDomain d B ((d B).filter (fun b => csp.constraints var value B b)) v →
          b ∈ d v := by
        intro v b hb
        by_cases hv : v = B
        · subst hv
          rw [updateDomain_apply_self] at hb
          exact (List.mem_filter.mp hb).1
        · rwa [updateDomain_apply_other _ _ hv] at hb
      have hext0 : ∀ q ∈ ((d B).filter
          (fun b => !(csp.constraints var value B b))).map (fun b => (B, b)),
          (q : V × A).2 ∈ d q.1 := by
        intro q hq
        obtain ⟨b, hb, he⟩ := List.mem_map.mp hq
        subst he
        exact (List.mem_filter.mp hb).1
      by_cases he : (updateDomain d B ((d B).filter
          (fun b => csp.constraints var value B b)) B).isEmpty
      · rw [if_pos he]
        exact ⟨hsub, _, rfl, hext0⟩
      · rw [if_neg he]
        obtain ⟨ihsub, ext1, ihrems, ihvals⟩ := ih
          (updateDomain d B ((d B).filter (fun b => csp.constraints var value B b)))
          (rems ++ ((d B).filter (fun b => !(csp.constraints var value B b))).map
            (fun b => (B, b)))
        refine ⟨fun v b hb => hsub v b (ihsub v b hb), ?_⟩
        refine ⟨((d B).filter (fun b => !(csp.constraints var value B b))).map
          (fun b => (B, b)) ++ ext1, ?_, ?_⟩
        · rw [ihrems, List.append_assoc]
        · intro q hq
          rcases List.mem_append.mp hq with h | h
          · exact hext0 q h
          · exact hsub q.1 q.2 (ihvals q h)

theorem NoConf_insert {csp : CSP V A} {a : List (V × A)} {var : V} {value : A}
    (hsym : ∀ v a n b, csp.constraints v a n b = csp.constraints n b v a)
    (hnbr : ∀ v n, n ∈ csp.neighbors v → v ∈ csp.neighbors n)
    (hirr : ∀ v, v ∉ csp.neighbors v)
    (hnd : (a.map (·.1)).Nodup) (hfresh : lookupd a var = none)
    (hno : NoConf csp a) (hz : nconflicts csp var value a = 0) :
    NoConf csp (a ++ [(var, value)]) := by
  have hzero : ∀ n ∈ csp.neighbors var, ∀ bn, lookupd a n = some bn →
      csp.constraints var value n bn = true := by
    intro n hn bn hbn
    unfold nconflicts at hz
    rw [List.countP_eq_zero] at hz
    have := hz n hn
    rw [hbn] at this
    simpa using this
  intro p hp n hn bn hbn
  rw [lookupd_append] at hbn
  rcases List.mem_append.mp hp with hpa | hps
  · cases hna : lookupd a n with
    | some bn' =>
      rw [hna] at hbn
      cases hbn
      exact hno p hpa n hn bn hna
    | none =>
      rw [hna] at hbn
      simp only [Option.none_or] at hbn
      rw [lookupd_cons] at hbn
      by_cases hv : var = n
      · rw [if_pos hv] at hbn
        cases hbn
        subst hv
        have hp1 : p.1 ∈ csp.neighbors var := hnbr p.1 var hn
        have hl1 : lookupd a p.1 = some p.2 := mem_lookupd_of_nodup hnd hpa
        have := hzero p.1 hp1 p.2 hl1
        rw [hsym var value p.1 p.2] at this
        exact this
      · rw [if_neg hv] at hbn
        cases hbn
  · simp only [List.mem_singleton] at hps
    subst hps
    by_cases hnv : n = var
    · subst hnv
      exact absurd hn (hirr n)
    · have hna : lookupd a n = some bn := by
        cases hx : lookupd a n with
        | some b => rw [hx] at hbn; cases hbn; rfl
        | none =>
          rw [hx] at hbn
          simp only [Option.none_or] at hbn
          rw [lookupd_cons] at hbn
          rw [if_neg (fun h : var = n => hnv h.symm)] at hbn
          cases hbn
      exact hzero n hn bn hna

theorem exists_unassigned {csp : CSP V A} {a : List (V × A)}
    (hvars : csp.variables.Nodup) (hk : KeysOK csp a)
    (hlen : a.length ≠ csp.variables.length) :
    ∃ v ∈ csp.variables, lookupd a v = none := by
  by_contra hno
  push_neg at hno
  have hsub : csp.variables ⊆ a.map (·.1) := by
    intro v hv
    exact (lookupd_isSome_iff a v).mp
      (Option.ne_none_iff_isSome.mp (hno v hv))
  have hksub : a.map (·.1) ⊆ csp.variables := by
    intro x hx
    obtain ⟨p, hp, he⟩ := List.mem_map.mp hx
    exact he ▸ hk.2 p hp
  have h1 : csp.variables.length ≤ (a.map (·.1)).length :=
    (hvars.subperm hsub).length_le
  have h2 : (a.map (·.1)).length ≤ csp.variables.length :=
    (hk.1.subperm hksub).length_le
  rw [List.length_map] at h1 h2
  omega

theorem choices_sub {csp : CSP V A} {st : BT V A} (hcur : CurrOK csp st)
    (var : V) : ∀ b ∈ choices csp st.curr var, b ∈ csp.domains var := by
  intro b hb
  unfold choices at hb
  cases hc : st.curr with
  | none => rw [hc] at hb; exact hb
  | some d =>
    rw [hc] at hb
    dsimp only at hb
    by_cases hv : csp.variables.isEmpty
    · rw [if_pos hv] at hb; exact hb
    · rw [if_neg hv] at hb
      exact hcur d hc var b hb

theorem suppose_sub {csp : CSP V A} {curr : Option (V → List A)}
    (hcur : ∀ d, curr = some d → ∀ v, ∀ b ∈ d v, b ∈ csp.domains v)
    {var : V} {value : A} (hval : value ∈ csp.domains var) :
    (∀ v, ∀ b ∈ (suppose csp curr var value).1 v, b ∈ csp.domains v)
    ∧ (∀ q ∈ (suppose csp curr var value).2, (q : V × A).2 ∈ csp.domains q.1) := by
  have hbase : ∀ v, ∀ b ∈ support_pruning csp curr v, b ∈ csp.domains v := by
    intro v b hb
    cases hc : curr with
    | none =>
      rw [hc] at hb
      exact hb
    | some d =>
      rw [hc] at hb
      exact hcur d hc v b hb
  constructor
  · intro v b hb
    simp only [suppose] at hb
    by_cases hv : v = var
    · subst hv
      rw [updateDomain_apply_self] at hb
      simp only [List.mem_singleton] at hb
      exact hb ▸ hval
    · rw [updateDomain_apply_other _ _ hv] at hb
      exact hbase v b hb
  · intro q hq
    simp only [suppose] at hq
    obtain ⟨b, hb, he⟩ := List.mem_map.mp hq
    subst he
    exact hbase var b (List.mem_filter.mp hb).1

theorem first_unassigned_variable_complete (csp : CSP V A)
    (a : List (V × A)) (curr : Option (V → List A))
    (h : ∃ v ∈ csp.variables, lookupd a v = none) :
    (first_unassigned_variable a csp curr).isSome := by
  obtain ⟨v, hv, hl⟩ := h
  have hmem : v ∈ csp.variables.filter (fun v => (lookupd a v).isNone) :=
    List.mem_filter.mpr ⟨hv, by rw [hl]; rfl⟩
  unfold first_unassigned_variable first
  cases hf : csp.variables.filter (fun v => (lookupd a v).isNone) with
  | nil => rw [hf] at hmem; cases hmem
  | cons x t => rfl

theorem tryVals_complete (csp : CSP V A) (maxSteps : Option Nat)
    (hsym : ∀ v a n b, csp.constraints v a n b = csp.constraints n b v a)
    (hnbr : ∀ v n, n ∈ csp.neighbors v → v ∈ csp.neighbors n)
    (hirr : ∀ v, v ∉ csp.neighbors v)
    (bt : List (V × A) → BT V A → Except Err (Option (List (V × A)) × BT V A))
    (var : V) (hvar : var ∈ csp.variables) (a : List (V × A))
    (hbt : ∀ a2 st2, KeysOK csp a2 → ValsOK csp a2 → NoConf csp a2 →
      CurrOK csp st2 → st2.trace = none → a2.length = a.length + 1 →
      ∃ r st', bt a2 st2 = .ok (r, st') ∧ st'.trace = none ∧ CurrOK csp st'
        ∧ (∀ sol, r = some sol → KeysOK csp sol ∧ ValsOK csp sol
            ∧ NoConf csp sol ∧ sol.length = csp.variables.length)) :
    ∀ (vals : List A) (st : BT V A),
      KeysOK csp a → ValsOK csp a → NoConf csp a → CurrOK csp st →
      st.trace = none → lookupd a var = none →
      (∀ b ∈ vals, b ∈ csp.domains var) →
      ∃ r st', tryVals csp forward_checking maxSteps bt var a vals st = .ok (r, st')
        ∧ st'.trace = none ∧ CurrOK csp st'
        ∧ (∀ sol, r = some sol → KeysOK csp sol ∧ ValsOK csp sol
            ∧ NoConf csp sol ∧ sol.length = csp.variables.length) := by
  intro vals
  induction vals with
  | nil =>
    intro st hk hv hn hc ht hfresh hvals
    exact ⟨none, st, by simp [tryVals], ht, hc, fun sol hs => by cases hs⟩
  | cons value rest ih =>
    intro st hk hv hn hc ht hfresh hvals
    simp only [tryVals, log_none ht]
    by_cases hcf : nconflicts csp var value a ≠ 0
    · rw [if_pos hcf]
      exact ih st hk hv hn hc ht hfresh
        (fun b hb => hvals b (List.mem_cons.mpr (Or.inr hb)))
    · rw [if_neg hcf]
      have hz : nconflicts csp var value a = 0 := by
        exact Classical.not_not.mp hcf
      have ht2 : (bumpAssigns st).trace = none := ht
      simp only [log_none ht2]
      have hvaldom : value ∈ csp.domains var := hvals value (List.mem_cons_self value rest)
      have hcur0 : ∀ d, (bumpAssigns st).curr = some d →
          ∀ v, ∀ b ∈ d v, b ∈ csp.domains v := fun d hd => hc d hd
      obtain ⟨hsup1, hsup2⟩ := suppose_sub hcur0 hvaldom
      set a' := assign a var value with ha'
      have hlen' : a'.length = a.length + 1 := by
        rw [ha', assign_of_fresh value hfresh]
        simp
      have hk' : KeysOK csp a' := by
        rw [ha', assign_of_fresh value hfresh]
        exact KeysOK_append value hk hvar hfresh
      have hv' : ValsOK csp a' := by
        rw [ha', assign_of_fresh value hfresh]
        intro p hp
        rcases List.mem_append.mp hp with h | h
        · exact hv p h
        · simp only [List.mem_singleton] at h
          subst h
          exact hvaldom
      have hn' : NoConf csp a' := by
        rw [ha', assign_of_fresh value hfresh]
        exact NoConf_insert hsym hnbr hirr hk.1 hfresh hn hz
      set rr := forward_checking csp var value a'
        (suppose csp (bumpAssigns st).curr var value).1
        (suppose csp (bumpAssigns st).curr var value).2 with hrr
      have hrrspec : rr = forward_checking_spec csp var value a' (csp.neighbors var)
          (suppose csp (bumpAssigns st).curr var value).1
          (suppose csp (bumpAssigns st).curr var value).2 := by
        rw [hrr]
        exact fcAux_eq_spec csp var value a' (csp.neighbors var) _ _
      obtain ⟨hfc1, ext, hfc2, hfc3⟩ := forward_checking_sub csp var value a'
        (csp.neighbors var)
        (suppose csp (bumpAssigns st).curr var value).1
        (suppose csp (bumpAssigns st).curr var value).2
      have hsub2 : ∀ v b, b ∈ rr.2.1 v → b ∈ csp.domains v := by
        intro v b hb
        rw [hrrspec] at hb
        exact hsup1 v b (hfc1 v b hb)
      have hrems : ∀ q ∈ rr.2.2, (q : V × A).2 ∈ csp.domains q.1 := by
        intro q hq
        rw [hrrspec, hfc2] at hq
        rcases List.mem_append.mp hq with h | h
        · exact hsup2 q h
        · exact hsup1 q.1 q.2 (hfc3 q h)
      have hcurr2 : CurrOK csp (setCurr (bumpAssigns st) rr.2.1) := by
        intro d hd v b hb
        cases hd
        exact hsub2 v b hb
      have hcurtrace : (setCurr (bumpAssigns st) rr.2.1).trace = none := ht
      have hrestoreCurr : ∀ (stx : BT V A), CurrOK csp stx →
          CurrOK csp (restoreSt stx rr.2.2) := by
        intro stx hcx d hd v b hb
        cases hsx : stx.curr with
        | none =>
          rw [show (restoreSt stx rr.2.2).curr = stx.curr.map (fun d => restore d rr.2.2) from rfl,
            hsx] at hd
          cases hd
        | some d0 =>
          rw [show (restoreSt stx rr.2.2).curr = stx.curr.map (fun d => restore d rr.2.2) from rfl,
            hsx] at hd
          simp only [Option.map_some'] at hd
          cases hd
          rcases (mem_restore rr.2.2 d0 v b).mp hb with h | h
          · exact hcx d0 hsx v b h
          · exact hrems (v, b) h
      have ha2 : unassign a' var = a := by
        rw [ha']
        exact unassign_assign_fresh value hfresh
      by_cases hr1 : rr.1 = true
      · rw [if_pos hr1]
        obtain ⟨r, stx, hbx, htx, hcx, hprops⟩ :=
          hbt a' (setCurr (bumpAssigns st) rr.2.1) hk' hv' hn' hcurr2 hcurtrace hlen'
        rw [hbx]
        cases r with
        | some sol =>
          exact ⟨some sol, stx, rfl, htx, hcx,
            fun s hs => by cases hs; exact hprops sol rfl⟩
        | none =>
          have htr : (restoreSt stx rr.2.2).trace = none := htx
          simp only [log_none htr]
          rw [ha2]
          exact ih (restoreSt stx rr.2.2) hk hv hn (hrestoreCurr stx hcx) htr hfresh
            (fun b hb => hvals b (List.mem_cons.mpr (Or.inr hb)))
      · rw [if_neg hr1]
        simp only [log_none hcurtrace]
        have htr : (restoreSt (setCurr (bumpAssigns st) rr.2.1) rr.2.2).trace = none := ht
        simp only [log_none htr]
        rw [ha2]
        exact ih (restoreSt (setCurr (bumpAssigns st) rr.2.1) rr.2.2) hk hv hn
          (hrestoreCurr _ hcurr2) htr hfresh
          (fun b hb => hvals b (List.mem_cons.mpr (Or.inr hb)))

theorem backtrack_complete (csp : CSP V A) (sel : SelFn V A) (ord : OrdFn V A)
    (maxSteps : Option Nat)
    (hvars : csp.variables.Nodup)
    (hsel_sound : ∀ (a : List (V × A)) curr v, sel a csp curr = some v →
      (lookupd a v).isNone ∧ v ∈ csp.variables)
    (hsel_complete : ∀ (a : List (V × A)) curr,
      (∃ v ∈ csp.variables, lookupd a v = none) → (sel a csp curr).isSome)
    (hord : ∀ (var : V) (a : List (V × A)) curr,
      ∀ b ∈ ord var a csp curr, b ∈ choices csp curr var)
    (hsym : ∀ v a n b, csp.constraints v a n b = csp.constraints n b v a)
    (hnbr : ∀ v n, n ∈ csp.neighbors v → v ∈ csp.neighbors n)
    (hirr : ∀ v, v ∉ csp.neighbors v) :
    ∀ (fuel : Nat) (a : List (V × A)) (st : BT V A),
      KeysOK csp a → ValsOK csp a → NoConf csp a → CurrOK csp st →
      st.trace = none → csp.variables.length - a.length < fuel →
      ∃ r st', backtrack csp sel ord forward_checking maxSteps fuel a st
          = .ok (r, st')
        ∧ st'.trace = none ∧ CurrOK csp st'
        ∧ (∀ sol, r = some sol → KeysOK csp sol ∧ ValsOK csp sol
            ∧ NoConf csp sol ∧ sol.length = csp.variables.length) := by
  intro fuel
  induction fuel with
  | zero =>
    intro a st hk hv hn hc ht hm
    omega
  | succ fuel ih =>
    intro a st hk hv hn hc ht hm
    simp only [backtrack]
    by_cases hlen : a.length = csp.variables.length
    · rw [if_pos hlen]
      simp only [log_none ht]
      exact ⟨some a, st, rfl, ht, hc,
        fun sol hs => by cases hs; exact ⟨hk, hv, hn, hlen⟩⟩
    · rw [if_neg hlen]
      have hssome := hsel_complete a st.curr (exists_unassigned hvars hk hlen)
      obtain ⟨var, hse⟩ := Option.isSome_iff_exists.mp hssome
      rw [hse]
      obtain ⟨hfresh, hvarmem⟩ := hsel_sound a st.curr var hse
      have halen : a.length < csp.variables.length := by
        have hksub : a.map (·.1) ⊆ csp.variables := by
          intro x hx
          obtain ⟨p, hp, he⟩ := List.mem_map.mp hx
          exact he ▸ hk.2 p hp
        have := (hk.1.subperm hksub).length_le
        rw [List.length_map] at this
        omega
      exact tryVals_complete csp maxSteps hsym hnbr hirr
        (backtrack csp sel ord forward_checking maxSteps fuel) var hvarmem a
        (fun a2 st2 k2 v2 n2 c2 t2 hlen2 =>
          ih a2 st2 k2 v2 n2 c2 t2 (by omega))
        (ord var a csp st.curr) st hk hv hn hc ht
        (Option.isNone_iff_eq_none.mp hfresh)
        (fun b hb => choices_sub hc var b (hord var a st.curr b hb))

/-- C2: for a CSP whose constraint and neighbor relation are symmetric and
irreflexive (a simple graph with, e.g., the map-coloring disequality
constraint), if no total assignment drawing each value from its variable's
domain satisfies all constraints (that is, the chromatic number of the
neighbor graph exceeds the number of available labels), then the search,
run without a trace, with a sound and complete variable selector, a value
ordering drawn from the current choices, forward-checking inference and
sufficient fuel, returns the explicit no-solution result. -/
theorem C2_unsatisfiable_returns_none [Inhabited A] (csp : CSP V A)
    (sel : SelFn V A) (ord : OrdFn V A) (maxSteps : Option Nat) (fuel : Nat)
    (hvars : csp.variables.Nodup)
    (hsel_sound : ∀ (a : List (V × A)) curr v, sel a csp curr = some v →
      (lookupd a v).isNone ∧ v ∈ csp.variables)
    (hsel_complete : ∀ (a : List (V × A)) curr,
      (∃ v ∈ csp.variables, lookupd a v = none) → (sel a csp curr).isSome)
    (hord : ∀ (var : V) (a : List (V × A)) curr,
      ∀ b ∈ ord var a csp curr, b ∈ choices csp curr var)
    (hsym : ∀ v a n b, csp.constraints v a n b = csp.constraints n b v a)
    (hnbr : ∀ v n, n ∈ csp.neighbors v → v ∈ csp.neighbors n)
    (hirr : ∀ v, v ∉ csp.neighbors v)
    (hfuel : csp.variables.length < fuel)
    (hunsat : ¬ ∃ f : V → A, isSolution csp f) :
    backtracking_search csp sel ord forward_checking none maxSteps fuel
      = .ok (none, none) := by
  obtain ⟨r, st', hbk, ht', hc', hprops⟩ :=
    backtrack_complete csp sel ord maxSteps hvars hsel_sound hsel_complete hord
      hsym hnbr hirr fuel []
      ⟨none, 0, 0, none⟩
      ⟨List.nodup_nil, fun p hp => absurd hp (List.not_mem_nil p)⟩
      (fun p hp => absurd hp (List.not_mem_nil p))
      (fun p hp => absurd hp (List.not_mem_nil p))
      (fun d hd => by cases hd)
      rfl (by simpa using hfuel)
  simp only [backtracking_search, hbk]
  cases r with
  | none =>
    dsimp only
    rw [ht']
  | some sol =>
    exfalso
    obtain ⟨hk, hv, hn, hlen⟩ := hprops sol rfl
    have hcov : ∀ v ∈ csp.variables, ∃ b, lookupd sol v = some b := by
      intro v hv0
      have hksub : sol.map (·.1) ⊆ csp.variables := by
        intro x hx
        obtain ⟨p, hp, he⟩ := List.mem_map.mp hx
        exact he ▸ hk.2 p hp
      have hperm : (sol.map (·.1)).Perm csp.variables :=
        (hk.1.subperm hksub).perm_of_length_le (by rw [List.length_map]; omega)
      have hvk : v ∈ sol.map (·.1) := hperm.mem_iff.mpr hv0
      obtain ⟨b, hb⟩ := Option.isSome_iff_exists.mp ((lookupd_isSome_iff sol v).mpr hvk)
      exact ⟨b, hb⟩
    apply hunsat
    refine ⟨fun v => (lookupd sol v).getD default, ?_, ?_⟩
    · intro v hv0
      obtain ⟨b, hb⟩ := hcov v hv0
      simp only [hb, Option.getD_some]
      exact hv (v, b) (lookupd_mem hb)
    · intro v hv0 n hn0 hnin
      obtain ⟨bv, hbv⟩ := hcov v hv0
      obtain ⟨bn, hbn⟩ := hcov n hnin
      simp only [hbv, hbn, Option.getD_some]
      exact hn (v, bv) (lookupd_mem hbv) n hn0 bn hbn

/-- Witness for C2: the odd 5-cycle with two labels is unsatisfiable (its
chromatic number is 3), and the search returns the no-solution result. -/
theorem C2_unsatisfiable_returns_none_witness :
    backtracking_search pentagon first_unassigned_variable lcv forward_checking
      none none 6 = .ok (none, none) :=
  C2_unsatisfiable_returns_none pentagon first_unassigned_variable lcv none 6
    (by decide)
    (fun a curr v h => first_unassigned_variable_spec pentagon a curr v h)
    (fun a curr h => first_unassigned_variable_complete pentagon a curr h)
    (fun var a curr b hb => by
      simpa [lcv, List.mem_insertionSort] using hb)
    (by decide)
    (by decide)
    (by decide)
    (by decide)
    (by decide)

end MapCSP
